import Mathlib

/-!
# RingBufferRange

A shallow embedding of `src/src/RingBufferRange.hpp`.

* `std::int64_t` / `std::ptrdiff_t` values are integers; a signed operation whose
  mathematical result leaves `[-2^63, 2^63)` has no defined result (`none`).
* Arithmetic that mixes a signed counter with `length : size_t` is carried out in
  `std::uint64_t`: the signed operand is converted (`toU64`) and sums are reduced
  modulo `2^64`.
* The backing store `ContentType[length]` is a function `Fin length → ContentType`;
  pointers into it are element addresses `mem_ptr + index`.
* Statements about advancing an iterator around the whole storage assume `array_fits length`:
  the array `ContentType[length]` has at most `PTRDIFF_MAX` elements, so `position + 1` stays
  inside `std::ptrdiff_t`.
* A member function returns `some` of its result and the state after the call. From a state
  that satisfies the counter invariant `dequeue` and `pop` always have a result
  (`dequeue_defined`, `pop_defined`); `enqueue` has one unless `n_enqueues` is the largest
  `std::int64_t` and a slot is free (`enqueue_defined_iff`).
-/

/-- Smallest `std::int64_t`. -/
def INT64_MIN : Int := -(2 ^ 63)

/-- Largest `std::int64_t`. -/
def INT64_MAX : Int := 2 ^ 63 - 1

/-- The value is representable in `std::int64_t`. -/
def inInt64 (x : Int) : Prop := INT64_MIN ≤ x ∧ x ≤ INT64_MAX

instance (x : Int) : Decidable (inInt64 x) := by
  unfold inInt64; exact inferInstance

/-- Conversion of a signed 64-bit value to `std::uint64_t` / `size_t`: the value modulo `2^64`. -/
def toU64 (x : Int) : Nat := (x % 2 ^ 64).toNat

/-- Conversion of an unsigned 64-bit value to `std::int64_t` / `std::ptrdiff_t`. -/
def toI64 (n : Nat) : Int :=
  if n % 2 ^ 64 < 2 ^ 63 then ((n % 2 ^ 64 : Nat) : Int) else ((n % 2 ^ 64 : Nat) : Int) - 2 ^ 64

/-- Signed 64-bit addition; signed overflow has no defined result. -/
def addI64 (a b : Int) : Option Int :=
  if inInt64 (a + b) then some (a + b) else none

/-- Signed 64-bit subtraction; signed overflow has no defined result. -/
def subI64 (a b : Int) : Option Int :=
  if inInt64 (a - b) then some (a - b) else none

/-- Integral value of a `bool` operand (`false` is 0, `true` is 1). -/
def boolToInt (b : Bool) : Int := if b then 1 else 0

/-- The `std::has_single_bit(length)` requirement on a `size_t`: a power of two below `2^64`. -/
def has_single_bit (x : Nat) : Prop := ∃ k, k < 64 ∧ x = 2 ^ k

instance (x : Nat) : Decidable (has_single_bit x) := by
  unfold has_single_bit; exact inferInstance

/-- The members of `RingBufferRange<ContentType, length>`: the two counters, the address held
by `mem_ptr`, and the contents of the `length` slots viewed through `mem_span`. -/
structure RingBufferRange (ContentType : Type) (length : Nat) where
  n_enqueues : Int
  n_dequeues : Int
  mem_ptr : Nat
  mem_span : Fin length → ContentType

/-- The members of `RingBufferRange::Iterator`. -/
structure Iterator where
  base_ptr : Nat
  position : Int
deriving DecidableEq

namespace Iterator

/-- The constructor `Iterator(pos, base)`: `position` is the pointer difference `pos - base`. -/
def ofPointers (pos base : Nat) : Iterator :=
  { base_ptr := base, position := (pos : Int) - (base : Int) }

/-- The body of `operator==`. -/
def eq (a b : Iterator) : Bool :=
  (a.base_ptr == b.base_ptr) && (a.position == b.position)

/-- The body of the pre-increment `operator++`: `position = (position + 1) % length`, the sum
in `std::ptrdiff_t`, the remainder in `size_t`, the result converted back. -/
def pre_incr (length : Nat) (it : Iterator) : Option Iterator :=
  (addI64 it.position 1).map fun p => { it with position := toI64 (toU64 p % length) }

/-- The body of the post-increment `operator++(int)`: the returned copy and the advanced operand. -/
def post_incr (length : Nat) (it : Iterator) : Option (Iterator × Iterator) :=
  (pre_incr length it).map fun it' => (it, it')

/-- Pre-increment applied `k` times. -/
def advance (length : Nat) : Nat → Iterator → Option Iterator
  | 0, it => some it
  | k + 1, it => (pre_incr length it).bind (advance length k)

end Iterator

namespace RingBufferRange

variable {ContentType : Type} {length : Nat}

/-- The slot index `i % length` of an unsigned value. -/
def slot (length : Nat) [NeZero length] (i : Nat) : Fin length :=
  ⟨i % length, Nat.mod_lt i (Nat.pos_of_ne_zero (NeZero.ne length))⟩

/-- The constructor: counters zero, `length` value-initialised slots at the address `p` that the
allocation returned. -/
def construct [Inhabited ContentType] (p : Nat) : RingBufferRange ContentType length :=
  { n_enqueues := 0, n_dequeues := 0, mem_ptr := p, mem_span := fun _ => default }

/-- The body of `begin()`. -/
def begin [NeZero length] (s : RingBufferRange ContentType length) : Iterator :=
  Iterator.ofPointers (s.mem_ptr + (slot length (toU64 s.n_dequeues)).val) (s.mem_ptr + 0)

/-- The body of `end()`. -/
def end_ [NeZero length] (s : RingBufferRange ContentType length) : Iterator :=
  Iterator.ofPointers (s.mem_ptr + (slot length (toU64 s.n_enqueues)).val) (s.mem_ptr + 0)

/-- The body of `Iterator::operator*` on an iterator into the storage of `s`: a span of `length`
elements at `base_ptr`, indexed by `position` converted to `size_t`. An iterator whose base is
not this storage, or whose index is outside the span, has no defined value. -/
def deref (s : RingBufferRange ContentType length) (it : Iterator) : Option ContentType :=
  if it.base_ptr = s.mem_ptr then
    if h : toU64 it.position < length then some (s.mem_span ⟨toU64 it.position, h⟩) else none
  else none

/-- The body of `n_entries()`: the signed difference converted to `std::uint64_t`. -/
def n_entries (s : RingBufferRange ContentType length) : Option Nat :=
  (subI64 s.n_enqueues s.n_dequeues).map toU64

/-- The body of `pop()`. -/
def pop (s : RingBufferRange ContentType length) : Option (Bool × RingBufferRange ContentType length) :=
  let not_empty : Bool := decide (s.n_dequeues < s.n_enqueues)
  (addI64 s.n_dequeues (boolToInt not_empty)).map fun n =>
    (not_empty, { s with n_dequeues := n })

/-- The body of `enqueue(enqueue_content)`. -/
def enqueue [NeZero length] (s : RingBufferRange ContentType length) (enqueue_content : ContentType) :
    Option (Bool × RingBufferRange ContentType length) :=
  let slot_available : Bool :=
    decide (toU64 s.n_enqueues < (toU64 s.n_dequeues + length) % 2 ^ 64)
  let i := slot length (toU64 s.n_enqueues)
  let mem := Function.update s.mem_span i
    (if slot_available then enqueue_content else s.mem_span i)
  (addI64 s.n_enqueues (boolToInt slot_available)).map fun n =>
    (slot_available, { s with n_enqueues := n, mem_span := mem })

/-- The body of `dequeue()`. -/
def dequeue [NeZero length] (s : RingBufferRange ContentType length) :
    Option (Option ContentType × RingBufferRange ContentType length) :=
  let not_empty : Bool := decide (s.n_enqueues > s.n_dequeues)
  let ret : Option ContentType :=
    if not_empty then some (s.mem_span (slot length (toU64 s.n_dequeues))) else none
  (addI64 s.n_dequeues (boolToInt not_empty)).map fun n =>
    (ret, { s with n_dequeues := n })

/-- The body of `emplace(args...)`; `build` is the `ContentType` constructor selected by the
argument types. -/
def emplace [NeZero length] {Args : Type} (s : RingBufferRange ContentType length)
    (build : Args → ContentType) (args : Args) :
    Option (Bool × RingBufferRange ContentType length) :=
  let slot_available : Bool :=
    decide (toU64 s.n_enqueues < (toU64 s.n_dequeues + length) % 2 ^ 64)
  let construct_location := slot length (toU64 s.n_enqueues)
  let mem := Function.update s.mem_span construct_location
    (if slot_available then build args else s.mem_span construct_location)
  (addI64 s.n_enqueues (boolToInt slot_available)).map fun n =>
    (slot_available, { s with n_enqueues := n, mem_span := mem })

/-- Calls `enqueue` on each value in order, collecting the returned booleans. -/
def enqueue_all [NeZero length] (s : RingBufferRange ContentType length) :
    List ContentType → Option (List Bool × RingBufferRange ContentType length)
  | [] => some ([], s)
  | v :: vs =>
    match enqueue s v with
    | none => none
    | some (b, s') =>
      match enqueue_all s' vs with
      | none => none
      | some (bs, s'') => some (b :: bs, s'')

/-- Calls `dequeue` `k` times, collecting the returned optionals. -/
def dequeue_n [NeZero length] (s : RingBufferRange ContentType length) :
    Nat → Option (List (Option ContentType) × RingBufferRange ContentType length)
  | 0 => some ([], s)
  | k + 1 =>
    match dequeue s with
    | none => none
    | some (r, s') =>
      match dequeue_n s' k with
      | none => none
      | some (rs, s'') => some (r :: rs, s'')

/-- The loop `for (it = first; !(it == last); ++it) out.push_back(*it)` over the storage of `s`,
bounded by `fuel` iterations; `none` when the fuel runs out or a step has no defined result. -/
def iterate (s : RingBufferRange ContentType length) :
    Nat → Iterator → Iterator → Option (List ContentType)
  | 0, _, _ => none
  | fuel + 1, it, last =>
    if Iterator.eq it last then some []
    else
      match deref s it, Iterator.pre_incr length it with
      | some v, some it' =>
        match iterate s fuel it' last with
        | some vs => some (v :: vs)
        | none => none
      | _, _ => none

/-- The count `std::ranges::distance` makes on a forward range: the number of pre-increments
until `it == last`, bounded by `fuel`. -/
def distance (length : Nat) : Nat → Iterator → Iterator → Option Nat
  | 0, _, _ => none
  | fuel + 1, it, last =>
    if Iterator.eq it last then some 0
    else
      match Iterator.pre_incr length it with
      | some it' =>
        match distance length fuel it' last with
        | some d => some (d + 1)
        | none => none
      | none => none

/-- States reachable from a freshly constructed buffer by calls of the mutating members, each
call having a defined result. -/
inductive Reachable [Inhabited ContentType] [NeZero length] :
    RingBufferRange ContentType length → Prop
  | construct (p : Nat) : Reachable (construct p)
  | enqueue (s s' : RingBufferRange ContentType length) (v : ContentType) (b : Bool) :
      Reachable s → enqueue s v = some (b, s') → Reachable s'
  | emplace {Args : Type} (s s' : RingBufferRange ContentType length) (build : Args → ContentType)
      (args : Args) (b : Bool) :
      Reachable s → emplace s build args = some (b, s') → Reachable s'
  | dequeue (s s' : RingBufferRange ContentType length) (r : Option ContentType) :
      Reachable s → dequeue s = some (r, s') → Reachable s'
  | pop (s s' : RingBufferRange ContentType length) (b : Bool) :
      Reachable s → pop s = some (b, s') → Reachable s'

/-- The counter invariant of the data model, with the representability bound of the counters. -/
def Inv (s : RingBufferRange ContentType length) : Prop :=
  0 ≤ s.n_dequeues ∧ s.n_dequeues ≤ s.n_enqueues ∧
    s.n_enqueues - s.n_dequeues ≤ (length : Int) ∧ s.n_enqueues ≤ INT64_MAX

instance (s : RingBufferRange ContentType length) : Decidable (Inv s) := by
  unfold Inv; exact inferInstance

/-- The live contents: the slots of the logical positions `n_dequeues, ..., n_enqueues - 1`,
oldest first. -/
def live [NeZero length] (s : RingBufferRange ContentType length) : List ContentType :=
  (List.range (s.n_enqueues - s.n_dequeues).toNat).map fun i =>
    s.mem_span (slot length (s.n_dequeues.toNat + i))

end RingBufferRange

/-! ## Example states -/

namespace RingBufferRange

/-- A buffer of four naturals holding four live entries. -/
def example_full : RingBufferRange Nat 4 :=
  { n_enqueues := 4, n_dequeues := 0, mem_ptr := 0, mem_span := fun i => 10 + i.val }

/-- A buffer of four naturals holding one live entry, the counters past the capacity. -/
def example_one : RingBufferRange Nat 4 :=
  { n_enqueues := 6, n_dequeues := 5, mem_ptr := 0, mem_span := fun i => 10 + i.val }

/-- The buffer of four naturals after `enqueue(658)` on a freshly constructed one. -/
def example_single : RingBufferRange Nat 4 :=
  { n_enqueues := 1, n_dequeues := 0, mem_ptr := 0,
    mem_span := Function.update (fun _ => 0) 0 658 }

/-- An empty buffer of four naturals whose counters hold the largest `std::int64_t`. -/
def example_at_max : RingBufferRange Nat 4 :=
  { n_enqueues := INT64_MAX, n_dequeues := INT64_MAX, mem_ptr := 0, mem_span := fun _ => 0 }

/-- A buffer of four naturals whose counters are both `-1`. -/
def example_negative : RingBufferRange Nat 4 :=
  { n_enqueues := -1, n_dequeues := -1, mem_ptr := 0, mem_span := fun _ => 0 }

end RingBufferRange

/-! ## Storage size, call sequences and the abstract queue -/

/-- Largest `std::ptrdiff_t`, the largest size of an object. -/
def PTRDIFF_MAX : Int := 2 ^ 63 - 1

/-- The array `ContentType[length]` of the constructor's `new` expression can exist: with a
constant `length` the expression is ill-formed when the array exceeds the largest object size,
so the array has at most `PTRDIFF_MAX` elements. -/
def array_fits (length : Nat) : Prop := (length : Int) ≤ PTRDIFF_MAX

instance (length : Nat) : Decidable (array_fits length) := by
  unfold array_fits; exact inferInstance

/-- One call of a member function of the buffer. -/
inductive Call (ContentType : Type) : Type 1 where
  | enqueue (v : ContentType)
  | emplace (Args : Type) (build : Args → ContentType) (args : Args)
  | dequeue
  | pop
  | n_entries

/-- The value a call returns: the `bool` of `enqueue`, `emplace` and `pop`, the optional of
`dequeue`, the count of `n_entries`. -/
inductive Ret (ContentType : Type) : Type where
  | bool (b : Bool)
  | optional (r : Option ContentType)
  | count (n : Nat)
deriving DecidableEq

/-- The call is an `enqueue` or an `emplace`. -/
def Call.is_insert {ContentType : Type} : Call ContentType → Bool
  | Call.enqueue _ => true
  | Call.emplace _ _ _ => true
  | _ => false

namespace RingBufferRange

variable {ContentType : Type} {length : Nat}

/-- Performs one call on the buffer. -/
def call [NeZero length] (s : RingBufferRange ContentType length) :
    Call ContentType → Option (Ret ContentType × RingBufferRange ContentType length)
  | Call.enqueue v => (enqueue s v).map fun p => (Ret.bool p.1, p.2)
  | Call.emplace _ build args => (emplace s build args).map fun p => (Ret.bool p.1, p.2)
  | Call.dequeue => (dequeue s).map fun p => (Ret.optional p.1, p.2)
  | Call.pop => (pop s).map fun p => (Ret.bool p.1, p.2)
  | Call.n_entries => (n_entries s).map fun n => (Ret.count n, s)

/-- Performs the calls in order, collecting the returned values. -/
def run [NeZero length] (s : RingBufferRange ContentType length) :
    List (Call ContentType) → Option (List (Ret ContentType) × RingBufferRange ContentType length)
  | [] => some ([], s)
  | c :: cs =>
    match call s c with
    | none => none
    | some (r, s') =>
      match run s' cs with
      | none => none
      | some (rs, s'') => some (r :: rs, s'')

/-- The call sequence `enqueue(0); dequeue();` repeated `n` times. -/
def enqueue_dequeue_pairs : Nat → List (Call Nat)
  | 0 => []
  | n + 1 => Call.enqueue 0 :: Call.dequeue :: enqueue_dequeue_pairs n

/-- The buffer of four naturals after `enqueue(658); enqueue(7)` on a freshly constructed one. -/
def example_two : RingBufferRange Nat 4 :=
  { n_enqueues := 2, n_dequeues := 0, mem_ptr := 0,
    mem_span := Function.update (Function.update (fun _ => 0) 0 658) 1 7 }

end RingBufferRange

/-- The abstract bounded queue: a list of at most `N` values, oldest first. -/
abbrev AbstractQueue (ContentType : Type) := List ContentType

namespace AbstractQueue

variable {ContentType : Type}

/-- Insert appends at the back if the length is below `N` and returns `true`; otherwise it
returns `false` and the list unchanged. -/
def insert (N : Nat) (q : AbstractQueue ContentType) (v : ContentType) :
    Bool × AbstractQueue ContentType :=
  if q.length < N then (true, q ++ [v]) else (false, q)

/-- Remove takes the value at the front if the list is non-empty; otherwise it returns
nothing. -/
def remove : AbstractQueue ContentType → Option ContentType × AbstractQueue ContentType
  | [] => (none, [])
  | x :: xs => (some x, xs)

/-- Performs one call on the abstract queue: `enqueue` and `emplace` insert, `dequeue` removes,
`pop` removes and reports whether a value was removed, `n_entries` is the length. -/
def call (N : Nat) (q : AbstractQueue ContentType) :
    Call ContentType → Ret ContentType × AbstractQueue ContentType
  | Call.enqueue v => (Ret.bool (insert N q v).1, (insert N q v).2)
  | Call.emplace _ build args => (Ret.bool (insert N q (build args)).1, (insert N q (build args)).2)
  | Call.dequeue => (Ret.optional (remove q).1, (remove q).2)
  | Call.pop => (Ret.bool (remove q).1.isSome, (remove q).2)
  | Call.n_entries => (Ret.count q.length, q)

/-- Performs the calls in order on the abstract queue, collecting the returned values. -/
def run (N : Nat) (q : AbstractQueue ContentType) :
    List (Call ContentType) → List (Ret ContentType) × AbstractQueue ContentType
  | [] => ([], q)
  | c :: cs => ((call N q c).1 :: (run N (call N q c).2 cs).1, (run N (call N q c).2 cs).2)

end AbstractQueue

/-! ## Arithmetic of the counters -/

namespace RingBufferRange

variable {ContentType : Type} {length : Nat}

theorem has_single_bit_pos (h : has_single_bit length) : 0 < length := by
  obtain ⟨k, _, rfl⟩ := h
  exact Nat.two_pow_pos k

theorem has_single_bit_le (h : has_single_bit length) : length ≤ 2 ^ 63 := by
  obtain ⟨k, hk, rfl⟩ := h
  exact Nat.pow_le_pow_right (by decide) (by omega)

theorem has_single_bit_dvd (h : has_single_bit length) : length ∣ 2 ^ 64 := by
  obtain ⟨k, hk, rfl⟩ := h
  exact Nat.pow_dvd_pow 2 (by omega)

theorem toU64_of_nonneg {x : Int} (h0 : 0 ≤ x) (h1 : x ≤ INT64_MAX) : toU64 x = x.toNat := by
  unfold toU64; unfold INT64_MAX at h1; omega

theorem toU64_lt (x : Int) : toU64 x < 2 ^ 64 := by
  unfold toU64; omega

theorem toU64_mod (h : has_single_bit length) (x : Int) :
    ((toU64 x % length : Nat) : Int) = x % (length : Int) := by
  have hd : ((length : Nat) : Int) ∣ (2 ^ 64 : Int) := by
    have := has_single_bit_dvd h
    exact_mod_cast Int.natCast_dvd_natCast.mpr this
  unfold toU64
  rw [Int.natCast_mod, Int.toNat_of_nonneg (Int.emod_nonneg _ (by decide))]
  exact Int.emod_emod_of_dvd x hd

theorem addI64_zero {a : Int} (h : inInt64 a) : addI64 a 0 = some a := by
  simp [addI64, h]

theorem addI64_one {a : Int} (h0 : INT64_MIN ≤ a) (h1 : a < INT64_MAX) :
    addI64 a 1 = some (a + 1) := by
  have : inInt64 (a + 1) := by
    unfold inInt64 INT64_MIN INT64_MAX at *; omega
  simp [addI64, this]

end RingBufferRange

/-! ## Single calls -/

namespace RingBufferRange

variable {ContentType : Type} {length : Nat}

theorem slot_available_iff (hlen : has_single_bit length) {e d : Int}
    (hd0 : 0 ≤ d) (hd1 : d ≤ INT64_MAX) (he0 : 0 ≤ e) (he1 : e ≤ INT64_MAX) :
    toU64 e < (toU64 d + length) % 2 ^ 64 ↔ e - d < (length : Int) := by
  have hl := has_single_bit_le hlen
  rw [toU64_of_nonneg hd0 hd1, toU64_of_nonneg he0 he1]
  unfold INT64_MAX at *
  omega

theorem enqueue_of_slot_available [NeZero length] (hlen : has_single_bit length)
    (s : RingBufferRange ContentType length) (v : ContentType)
    (hd0 : 0 ≤ s.n_dequeues) (hd1 : s.n_dequeues ≤ INT64_MAX)
    (he0 : 0 ≤ s.n_enqueues) (he1 : s.n_enqueues < INT64_MAX)
    (hfree : s.n_enqueues - s.n_dequeues < (length : Int)) :
    enqueue s v = some (true, { s with
      n_enqueues := s.n_enqueues + 1,
      mem_span := Function.update s.mem_span (slot length (toU64 s.n_enqueues)) v }) := by
  have hsa : toU64 s.n_enqueues < (toU64 s.n_dequeues + length) % 2 ^ 64 :=
    (slot_available_iff hlen hd0 hd1 he0 (le_of_lt he1)).mpr hfree
  have hadd : addI64 s.n_enqueues 1 = some (s.n_enqueues + 1) :=
    addI64_one (by unfold INT64_MIN; omega) he1
  simp only [Nat.reducePow] at hsa
  simp [enqueue, hsa, boolToInt, hadd]

theorem enqueue_of_free [NeZero length] (hlen : has_single_bit length)
    (s : RingBufferRange ContentType length) (v : ContentType)
    (hd : inInt64 s.n_dequeues)
    (he0 : 0 ≤ s.n_enqueues) (he1 : s.n_enqueues < INT64_MAX)
    (hfree : s.n_enqueues - s.n_dequeues < (length : Int)) :
    enqueue s v = some (true, { s with
      n_enqueues := s.n_enqueues + 1,
      mem_span := Function.update s.mem_span (slot length (toU64 s.n_enqueues)) v }) := by
  have hl := has_single_bit_le hlen
  have hsa : toU64 s.n_enqueues < (toU64 s.n_dequeues + length) % 2 ^ 64 := by
    unfold inInt64 INT64_MIN INT64_MAX at *
    unfold toU64
    omega
  have hadd : addI64 s.n_enqueues 1 = some (s.n_enqueues + 1) :=
    addI64_one (by unfold INT64_MIN; omega) he1
  simp only [Nat.reducePow] at hsa
  simp [enqueue, hsa, boolToInt, hadd]

theorem enqueue_of_not_slot_available [NeZero length]
    (s : RingBufferRange ContentType length) (v : ContentType)
    (he : inInt64 s.n_enqueues)
    (hfull : ¬ toU64 s.n_enqueues < (toU64 s.n_dequeues + length) % 2 ^ 64) :
    enqueue s v = some (false, s) := by
  simp only [Nat.reducePow] at hfull
  simp [enqueue, hfull, boolToInt, addI64_zero he]

theorem dequeue_of_not_empty [NeZero length]
    (s : RingBufferRange ContentType length)
    (he : inInt64 s.n_enqueues) (hd : inInt64 s.n_dequeues)
    (h : s.n_enqueues > s.n_dequeues) :
    dequeue s = some (some (s.mem_span (slot length (toU64 s.n_dequeues))),
      { s with n_dequeues := s.n_dequeues + 1 }) := by
  have hadd : addI64 s.n_dequeues 1 = some (s.n_dequeues + 1) :=
    addI64_one hd.1 (lt_of_lt_of_le h he.2)
  simp [dequeue, h, boolToInt, hadd]

theorem dequeue_of_empty [NeZero length]
    (s : RingBufferRange ContentType length)
    (hd : inInt64 s.n_dequeues) (h : ¬ s.n_enqueues > s.n_dequeues) :
    dequeue s = some (none, s) := by
  simp [dequeue, h, boolToInt, addI64_zero hd]

theorem pop_of_not_empty
    (s : RingBufferRange ContentType length)
    (he : inInt64 s.n_enqueues) (hd : inInt64 s.n_dequeues)
    (h : s.n_dequeues < s.n_enqueues) :
    pop s = some (true, { s with n_dequeues := s.n_dequeues + 1 }) := by
  have hadd : addI64 s.n_dequeues 1 = some (s.n_dequeues + 1) :=
    addI64_one hd.1 (lt_of_lt_of_le h he.2)
  simp [pop, h, boolToInt, hadd]

theorem pop_of_empty
    (s : RingBufferRange ContentType length)
    (hd : inInt64 s.n_dequeues) (h : ¬ s.n_dequeues < s.n_enqueues) :
    pop s = some (false, s) := by
  simp [pop, h, boolToInt, addI64_zero hd]

theorem emplace_eq_enqueue [NeZero length] {Args : Type}
    (s : RingBufferRange ContentType length) (build : Args → ContentType) (args : Args) :
    emplace s build args = enqueue s (build args) := rfl

end RingBufferRange

/-! ## The counter invariant -/

namespace RingBufferRange

variable {ContentType : Type} {length : Nat}

theorem Inv.inInt64_enq {s : RingBufferRange ContentType length} (h : Inv s) :
    inInt64 s.n_enqueues := by
  unfold Inv at h; unfold inInt64 INT64_MIN; unfold INT64_MAX at *; omega

theorem Inv.inInt64_deq {s : RingBufferRange ContentType length} (h : Inv s) :
    inInt64 s.n_dequeues := by
  unfold Inv at h; unfold inInt64 INT64_MIN; unfold INT64_MAX at *; omega

theorem Inv.construct [Inhabited ContentType] (p : Nat) :
    Inv (construct p : RingBufferRange ContentType length) := by
  simp [Inv, RingBufferRange.construct, INT64_MAX]

theorem Inv.enqueue [NeZero length] (hlen : has_single_bit length)
    {s s' : RingBufferRange ContentType length} {v : ContentType} {b : Bool}
    (h : Inv s) (hstep : enqueue s v = some (b, s')) : Inv s' := by
  by_cases hsa : toU64 s.n_enqueues < (toU64 s.n_dequeues + length) % 2 ^ 64
  · have hfree := (slot_available_iff hlen h.1 h.inInt64_deq.2 (le_trans h.1 h.2.1) h.2.2.2).mp hsa
    by_cases hmax : s.n_enqueues < INT64_MAX
    · rw [enqueue_of_slot_available hlen s v h.1 h.inInt64_deq.2 (le_trans h.1 h.2.1) hmax hfree]
        at hstep
      obtain ⟨-, rfl⟩ := Prod.mk.inj (Option.some.inj hstep)
      unfold Inv at *; simp only; unfold INT64_MAX at *; omega
    · exfalso
      have hover : ¬ inInt64 (s.n_enqueues + 1) := by
        unfold inInt64; omega
      simp only [Nat.reducePow] at hsa
      simp [RingBufferRange.enqueue, hsa, boolToInt, addI64, hover] at hstep
  · rw [enqueue_of_not_slot_available s v h.inInt64_enq hsa] at hstep
    obtain ⟨-, rfl⟩ := Prod.mk.inj (Option.some.inj hstep)
    exact h

theorem Inv.dequeue [NeZero length]
    {s s' : RingBufferRange ContentType length} {r : Option ContentType}
    (h : Inv s) (hstep : dequeue s = some (r, s')) : Inv s' := by
  by_cases hne : s.n_enqueues > s.n_dequeues
  · rw [dequeue_of_not_empty s h.inInt64_enq h.inInt64_deq hne] at hstep
    obtain ⟨-, rfl⟩ := Prod.mk.inj (Option.some.inj hstep)
    unfold Inv at *; simp only; omega
  · rw [dequeue_of_empty s h.inInt64_deq hne] at hstep
    obtain ⟨-, rfl⟩ := Prod.mk.inj (Option.some.inj hstep)
    exact h

theorem Inv.pop
    {s s' : RingBufferRange ContentType length} {b : Bool}
    (h : Inv s) (hstep : pop s = some (b, s')) : Inv s' := by
  by_cases hne : s.n_dequeues < s.n_enqueues
  · rw [pop_of_not_empty s h.inInt64_enq h.inInt64_deq hne] at hstep
    obtain ⟨-, rfl⟩ := Prod.mk.inj (Option.some.inj hstep)
    unfold Inv at *; simp only; omega
  · rw [pop_of_empty s h.inInt64_deq hne] at hstep
    obtain ⟨-, rfl⟩ := Prod.mk.inj (Option.some.inj hstep)
    exact h

theorem Reachable.inv [Inhabited ContentType] [NeZero length] (hlen : has_single_bit length)
    {s : RingBufferRange ContentType length} (h : Reachable s) : Inv s := by
  induction h with
  | construct p => exact Inv.construct p
  | enqueue s s' v b _ hstep ih => exact ih.enqueue hlen hstep
  | emplace s s' build args b _ hstep ih =>
    rw [emplace_eq_enqueue] at hstep
    exact ih.enqueue hlen hstep
  | dequeue s s' r _ hstep ih => exact ih.dequeue hstep
  | pop s s' b _ hstep ih => exact ih.pop hstep

theorem dequeue_defined [NeZero length] {s : RingBufferRange ContentType length} (h : Inv s) :
    ∃ r s', dequeue s = some (r, s') := by
  by_cases hne : s.n_enqueues > s.n_dequeues
  · exact ⟨_, _, dequeue_of_not_empty s h.inInt64_enq h.inInt64_deq hne⟩
  · exact ⟨_, _, dequeue_of_empty s h.inInt64_deq hne⟩

theorem pop_defined {s : RingBufferRange ContentType length} (h : Inv s) :
    ∃ b s', pop s = some (b, s') := by
  by_cases hne : s.n_dequeues < s.n_enqueues
  · exact ⟨_, _, pop_of_not_empty s h.inInt64_enq h.inInt64_deq hne⟩
  · exact ⟨_, _, pop_of_empty s h.inInt64_deq hne⟩

theorem enqueue_defined_iff [NeZero length] (hlen : has_single_bit length)
    {s : RingBufferRange ContentType length} (h : Inv s) (v : ContentType) :
    (∃ b s', enqueue s v = some (b, s')) ↔
      ¬ (s.n_enqueues = INT64_MAX ∧ s.n_enqueues - s.n_dequeues < (length : Int)) := by
  have he0 : 0 ≤ s.n_enqueues := le_trans h.1 h.2.1
  constructor
  · rintro ⟨b, s', hstep⟩ ⟨hmax, hfree⟩
    have hsa := (slot_available_iff hlen h.1 h.inInt64_deq.2 he0 h.2.2.2).mpr hfree
    have hover : ¬ inInt64 (s.n_enqueues + 1) := by
      unfold inInt64; omega
    simp only [Nat.reducePow] at hsa
    simp [enqueue, hsa, boolToInt, addI64, hover] at hstep
  · intro hno
    by_cases hfree : s.n_enqueues - s.n_dequeues < (length : Int)
    · have hmax : s.n_enqueues < INT64_MAX :=
        lt_of_le_of_ne h.2.2.2 (fun hc => hno ⟨hc, hfree⟩)
      exact ⟨_, _, enqueue_of_slot_available hlen s v h.1 h.inInt64_deq.2 he0 hmax hfree⟩
    · have hsa : ¬ toU64 s.n_enqueues < (toU64 s.n_dequeues + length) % 2 ^ 64 :=
        fun hc => hfree ((slot_available_iff hlen h.1 h.inInt64_deq.2 he0 h.2.2.2).mp hc)
      exact ⟨_, _, enqueue_of_not_slot_available s v h.inInt64_enq hsa⟩

theorem n_entries_of_inv {s : RingBufferRange ContentType length} (h : Inv s) :
    n_entries s = some (s.n_enqueues - s.n_dequeues).toNat := by
  have hr : inInt64 (s.n_enqueues - s.n_dequeues) := by
    unfold Inv at h; unfold inInt64 INT64_MIN; unfold INT64_MAX at *; omega
  have hu : toU64 (s.n_enqueues - s.n_dequeues) = (s.n_enqueues - s.n_dequeues).toNat := by
    unfold Inv at h
    exact toU64_of_nonneg (by omega) (by unfold INT64_MAX at *; omega)
  simp [n_entries, subI64, hr, hu]

end RingBufferRange

/-! ## Contracts of `enqueue` and `dequeue` -/

namespace RingBufferRange

variable {ContentType : Type} {length : Nat}

theorem slot_val_cast [NeZero length] (hlen : has_single_bit length) (x : Int) :
    (((slot length (toU64 x)).val : Nat) : Int) = x % (length : Int) :=
  toU64_mod hlen x

/-- C2: in every state with `n_entries() == length`, `enqueue(v)` returns `false` and the state
after the call (both counters and every slot) is the state before it. -/
theorem enqueue_full_rejected [NeZero length] (s : RingBufferRange ContentType length)
    (v : ContentType) (he : inInt64 s.n_enqueues) (hfull : n_entries s = some length) :
    enqueue s v = some (false, s) := by
  apply enqueue_of_not_slot_available s v he
  have hn : toU64 (s.n_enqueues - s.n_dequeues) = length := by
    unfold n_entries subI64 at hfull
    by_cases hr : inInt64 (s.n_enqueues - s.n_dequeues)
    · simpa [hr] using hfull
    · simp [hr] at hfull
  unfold toU64 at *
  omega

theorem enqueue_full_rejected_witness :
    inInt64 example_full.n_enqueues ∧ n_entries example_full = some 4 ∧
      enqueue example_full 7 = some (false, example_full) :=
  ⟨by decide, by decide, enqueue_full_rejected example_full 7 (by decide) (by decide)⟩

/-- C3 fails as stated: with both counters at the largest `std::int64_t` the difference is
`0 < 4` but the increment of `n_enqueues` overflows, so the call has no defined result; and with
both counters at `-1` the difference is `0 < 4` but the unsigned capacity test is false and the
call returns `false`. -/
theorem enqueue_counterexample_at_bounds :
    (inInt64 example_at_max.n_enqueues ∧ inInt64 example_at_max.n_dequeues ∧
      example_at_max.n_enqueues - example_at_max.n_dequeues < 4 ∧
      enqueue example_at_max 7 = none) ∧
    (inInt64 example_negative.n_enqueues ∧ inInt64 example_negative.n_dequeues ∧
      example_negative.n_enqueues - example_negative.n_dequeues < 4 ∧
      enqueue example_negative 7 = some (false, example_negative)) := by
  refine ⟨⟨by decide, by decide, by decide, ?_⟩, ⟨by decide, by decide, by decide, ?_⟩⟩
  · have h : ¬ inInt64 (INT64_MAX + 1) := by decide
    have hsa : toU64 INT64_MAX < (toU64 INT64_MAX + 4) % 2 ^ 64 := by decide
    simp only [Nat.reducePow] at hsa
    simp [enqueue, example_at_max, addI64, boolToInt, hsa, h]
  · exact enqueue_of_not_slot_available example_negative 7 (by decide) (by decide)

/-- C3, amended: in every state with `0 ≤ n_enqueues`, `n_enqueues` below the largest
`std::int64_t` and `n_enqueues - n_dequeues < length`, `enqueue(v)` returns `true`, the slot at
index `n_enqueues mod length` holds `v` afterwards, `n_enqueues` grows by exactly one, and
`n_dequeues` and every other slot are unchanged. -/
theorem enqueue_success_post [NeZero length] (hlen : has_single_bit length)
    (s : RingBufferRange ContentType length) (v : ContentType)
    (hd : inInt64 s.n_dequeues)
    (he0 : 0 ≤ s.n_enqueues) (he1 : s.n_enqueues < INT64_MAX)
    (hfree : s.n_enqueues - s.n_dequeues < (length : Int)) :
    ∃ s', enqueue s v = some (true, s') ∧
      (∃ j : Fin length, (j.val : Int) = s.n_enqueues % (length : Int) ∧ s'.mem_span j = v ∧
        ∀ j', j' ≠ j → s'.mem_span j' = s.mem_span j') ∧
      s'.n_enqueues = s.n_enqueues + 1 ∧ s'.n_dequeues = s.n_dequeues ∧
      s'.mem_ptr = s.mem_ptr := by
  refine ⟨_, enqueue_of_free hlen s v hd he0 he1 hfree,
    ⟨slot length (toU64 s.n_enqueues), slot_val_cast hlen _, ?_, ?_⟩, rfl, rfl, rfl⟩
  · simp
  · intro j' hj'
    simp [Function.update_noteq hj']

theorem enqueue_success_post_witness :
    ∃ s', enqueue example_one 7 = some (true, s') ∧
      (∃ j : Fin 4, (j.val : Int) = example_one.n_enqueues % ((4 : Nat) : Int) ∧
        s'.mem_span j = 7 ∧ ∀ j', j' ≠ j → s'.mem_span j' = example_one.mem_span j') ∧
      s'.n_enqueues = example_one.n_enqueues + 1 ∧ s'.n_dequeues = example_one.n_dequeues ∧
      s'.mem_ptr = example_one.mem_ptr :=
  enqueue_success_post (by decide) example_one 7 (by decide) (by decide) (by decide) (by decide)

/-- C4: in every state with `n_enqueues > n_dequeues`, `dequeue()` returns a present value, the
content of the slot at index `n_dequeues mod length`; `n_dequeues` grows by exactly one,
`n_enqueues` is unchanged and all slots are unchanged. -/
theorem dequeue_success_post [NeZero length] (hlen : has_single_bit length)
    (s : RingBufferRange ContentType length)
    (he : inInt64 s.n_enqueues) (hd : inInt64 s.n_dequeues)
    (h : s.n_enqueues > s.n_dequeues) :
    ∃ v s', dequeue s = some (some v, s') ∧
      (∃ j : Fin length, (j.val : Int) = s.n_dequeues % (length : Int) ∧ v = s.mem_span j) ∧
      s'.n_dequeues = s.n_dequeues + 1 ∧ s'.n_enqueues = s.n_enqueues ∧
      s'.mem_span = s.mem_span ∧ s'.mem_ptr = s.mem_ptr :=
  ⟨_, _, dequeue_of_not_empty s he hd h,
    ⟨slot length (toU64 s.n_dequeues), slot_val_cast hlen _, rfl⟩, rfl, rfl, rfl, rfl⟩

theorem dequeue_success_post_witness :
    ∃ v s', dequeue example_one = some (some v, s') ∧
      (∃ j : Fin 4, (j.val : Int) = example_one.n_dequeues % ((4 : Nat) : Int) ∧
        v = example_one.mem_span j) ∧
      s'.n_dequeues = example_one.n_dequeues + 1 ∧ s'.n_enqueues = example_one.n_enqueues ∧
      s'.mem_span = example_one.mem_span ∧ s'.mem_ptr = example_one.mem_ptr :=
  dequeue_success_post (by decide) example_one (by decide) (by decide) (by decide)

/-- C5: in every reachable state `dequeue()` returns, and what it returns is the empty optional
exactly when `n_enqueues == n_dequeues`; in that case the state is unchanged by the call. -/
theorem dequeue_empty_iff [Inhabited ContentType] [NeZero length] (hlen : has_single_bit length)
    (s : RingBufferRange ContentType length) (h : Reachable s) :
    ∃ r s', dequeue s = some (r, s') ∧ (r = none ↔ s.n_enqueues = s.n_dequeues) ∧
      (s.n_enqueues = s.n_dequeues → s' = s) := by
  have hinv := h.inv hlen
  by_cases hne : s.n_enqueues > s.n_dequeues
  · refine ⟨_, _, dequeue_of_not_empty s hinv.inInt64_enq hinv.inInt64_deq hne, ?_, ?_⟩
    · constructor
      · intro hc; cases hc
      · intro hc; omega
    · intro hc; omega
  · refine ⟨_, _, dequeue_of_empty s hinv.inInt64_deq hne, ?_, ?_⟩
    · constructor
      · intro _
        have := hinv.2.1
        omega
      · intro _; rfl
    · intro _; rfl

theorem dequeue_empty_iff_witness :
    ∃ r s', dequeue (construct 0 : RingBufferRange Nat 4) = some (r, s') ∧
      (r = none ↔ (construct 0 : RingBufferRange Nat 4).n_enqueues =
        (construct 0 : RingBufferRange Nat 4).n_dequeues) ∧
      ((construct 0 : RingBufferRange Nat 4).n_enqueues =
        (construct 0 : RingBufferRange Nat 4).n_dequeues → s' = construct 0) :=
  dequeue_empty_iff (by decide) (construct 0) (Reachable.construct 0)

/-- C7: in every reachable state `0 ≤ n_dequeues ≤ n_enqueues` and
`n_enqueues - n_dequeues ≤ length`; `n_entries()` returns exactly `n_enqueues - n_dequeues`, a
value in `[0, length]`. -/
theorem occupancy_invariant [Inhabited ContentType] [NeZero length]
    (hlen : has_single_bit length) (s : RingBufferRange ContentType length)
    (h : Reachable s) :
    0 ≤ s.n_dequeues ∧ s.n_dequeues ≤ s.n_enqueues ∧
      s.n_enqueues - s.n_dequeues ≤ (length : Int) ∧
      ∃ n : Nat, n_entries s = some n ∧ (n : Int) = s.n_enqueues - s.n_dequeues ∧
        n ≤ length := by
  have hinv := h.inv hlen
  refine ⟨hinv.1, hinv.2.1, hinv.2.2.1, _, n_entries_of_inv hinv, ?_, ?_⟩
  · have := hinv.2.1
    omega
  · have := hinv.2.2.1
    omega

end RingBufferRange

/-! ## The live contents -/

namespace RingBufferRange

variable {ContentType : Type} {length : Nat}

theorem slot_ne [NeZero length] {a b : Nat} (hab : a < b) (hlt : b - a < length) :
    slot length a ≠ slot length b := by
  intro h
  have hmod : a % length = b % length := congrArg Fin.val h
  have hdvd : length ∣ b - a := (Nat.modEq_iff_dvd' (le_of_lt hab)).mp hmod
  have := Nat.le_of_dvd (by omega) hdvd
  omega

theorem live_length [NeZero length] (s : RingBufferRange ContentType length) :
    (live s).length = (s.n_enqueues - s.n_dequeues).toNat := by
  simp [live]

theorem live_enqueue [NeZero length] (s : RingBufferRange ContentType length) (v : ContentType)
    (h : Inv s) (hfree : s.n_enqueues - s.n_dequeues < (length : Int)) :
    live { s with
      n_enqueues := s.n_enqueues + 1,
      mem_span := Function.update s.mem_span (slot length (toU64 s.n_enqueues)) v }
      = live s ++ [v] := by
  obtain ⟨h0, h1, h2, h3⟩ := h
  have hu : toU64 s.n_enqueues = s.n_dequeues.toNat + (s.n_enqueues - s.n_dequeues).toNat := by
    rw [toU64_of_nonneg (le_trans h0 h1) h3]; omega
  have hm : (s.n_enqueues + 1 - s.n_dequeues).toNat = (s.n_enqueues - s.n_dequeues).toNat + 1 := by
    omega
  simp only [live, hm, List.range_succ, List.map_append, List.map_cons, List.map_nil]
  congr 1
  · apply List.map_congr_left
    intro i hi
    have hi' : i < (s.n_enqueues - s.n_dequeues).toNat := List.mem_range.mp hi
    apply Function.update_noteq
    rw [hu]
    apply slot_ne <;> omega
  · rw [← hu, Function.update_same]

theorem live_dequeue [NeZero length] (s : RingBufferRange ContentType length)
    (h : Inv s) (hne : s.n_enqueues > s.n_dequeues) :
    live s = s.mem_span (slot length (toU64 s.n_dequeues)) ::
      live { s with n_dequeues := s.n_dequeues + 1 } := by
  obtain ⟨h0, h1, h2, h3⟩ := h
  have hu : toU64 s.n_dequeues = s.n_dequeues.toNat :=
    toU64_of_nonneg h0 (le_trans h1 h3)
  obtain ⟨m, hm⟩ : ∃ m, (s.n_enqueues - s.n_dequeues).toNat = m + 1 :=
    ⟨(s.n_enqueues - s.n_dequeues).toNat - 1, by omega⟩
  have hm' : (s.n_enqueues - (s.n_dequeues + 1)).toNat = m := by omega
  have hd : (s.n_dequeues + 1).toNat = s.n_dequeues.toNat + 1 := by omega
  simp only [live, hm, hm', hd, hu, List.range_succ_eq_map, List.map_cons, List.map_map,
    Nat.add_zero]
  congr 1
  apply List.map_congr_left
  intro i _
  simp only [Function.comp, Nat.succ_eq_add_one]
  congr 2
  omega

theorem enqueue_all_spec [NeZero length] (hlen : has_single_bit length)
    (vs : List ContentType) (s : RingBufferRange ContentType length) (h : Inv s)
    (hroom : s.n_enqueues - s.n_dequeues + (vs.length : Int) ≤ (length : Int))
    (hmax : s.n_enqueues + (vs.length : Int) ≤ INT64_MAX) :
    ∃ s', enqueue_all s vs = some (List.replicate vs.length true, s') ∧ Inv s' ∧
      live s' = live s ++ vs ∧ s'.n_enqueues = s.n_enqueues + (vs.length : Int) ∧
      s'.n_dequeues = s.n_dequeues := by
  induction vs generalizing s with
  | nil => exact ⟨s, rfl, h, by simp, by simp, rfl⟩
  | cons v vs ih =>
    simp only [List.length_cons, Nat.cast_add, Nat.cast_one] at hroom hmax
    have hfree : s.n_enqueues - s.n_dequeues < (length : Int) := by omega
    have hstep := enqueue_of_slot_available hlen s v h.1 h.inInt64_deq.2
      (le_trans h.1 h.2.1) (by omega) hfree
    have hinv := h.enqueue hlen hstep
    obtain ⟨s', hall, hinv', hlive, he, hd⟩ := ih _ hinv
      (by simp only; omega) (by simp only; omega)
    refine ⟨s', ?_, hinv', ?_, ?_, ?_⟩
    · simp [enqueue_all, hstep, hall, List.replicate_succ]
    · rw [hlive, live_enqueue s v h hfree]; simp
    · rw [he]; simp only [List.length_cons, Nat.cast_add, Nat.cast_one]; omega
    · rw [hd]

theorem dequeue_n_spec [NeZero length] (k : Nat)
    (s : RingBufferRange ContentType length) (h : Inv s)
    (hk : (k : Int) = s.n_enqueues - s.n_dequeues) :
    ∃ s', dequeue_n s k = some ((live s).map some, s') ∧ Inv s' ∧
      s'.n_dequeues = s.n_enqueues ∧ s'.n_enqueues = s.n_enqueues ∧
      s'.mem_span = s.mem_span ∧ s'.mem_ptr = s.mem_ptr := by
  induction k generalizing s with
  | zero =>
    have he : s.n_enqueues = s.n_dequeues := by simp at hk; omega
    refine ⟨s, ?_, h, he.symm, rfl, rfl, rfl⟩
    simp [dequeue_n, live, he]
  | succ k ih =>
    have hne : s.n_enqueues > s.n_dequeues := by
      simp only [Nat.cast_add, Nat.cast_one] at hk; omega
    have hstep := dequeue_of_not_empty s h.inInt64_enq h.inInt64_deq hne
    have hinv := h.dequeue hstep
    obtain ⟨s', hall, hinv', hd, he, hmem, hptr⟩ := ih _ hinv
      (by simp only [Nat.cast_add, Nat.cast_one] at hk; simp only; omega)
    refine ⟨s', ?_, hinv', hd, he, hmem, hptr⟩
    simp [dequeue_n, hstep, hall, live_dequeue s h hne]

end RingBufferRange

/-! ## Round trip and FIFO order -/

namespace RingBufferRange

variable {ContentType : Type} {length : Nat}

theorem reachable_diag [Inhabited ContentType] [NeZero length] (hlen : has_single_bit length)
    (p n : Nat) (hn : (n : Int) ≤ INT64_MAX) :
    Reachable ({ n_enqueues := n, n_dequeues := n, mem_ptr := p, mem_span := fun _ => default } :
      RingBufferRange ContentType length) := by
  induction n with
  | zero => exact Reachable.construct p
  | succ n ih =>
    have hn' : (n : Int) < INT64_MAX := by
      simp only [Nat.cast_add, Nat.cast_one] at hn; omega
    have hr := ih (le_of_lt hn')
    have hin : inInt64 (n : Int) := by
      unfold inInt64 INT64_MIN; unfold INT64_MAX at *; omega
    have hin' : inInt64 ((n : Int) + 1) := by
      unfold inInt64 INT64_MIN; unfold INT64_MAX at *; omega
    have hmem : Function.update (fun _ : Fin length => (default : ContentType))
        (slot length (toU64 (n : Int))) default = fun _ => default := by
      funext j
      simp [Function.update_apply]
    have h1 := enqueue_of_slot_available hlen
      ({ n_enqueues := n, n_dequeues := n, mem_ptr := p, mem_span := fun _ => default } :
        RingBufferRange ContentType length) default
      (by simp) (le_of_lt hn') (by simp) hn' (by
        have := has_single_bit_pos hlen
        simp only [sub_self]; omega)
    simp only [hmem] at h1
    have hr1 := Reachable.enqueue _ _ _ _ hr h1
    have h2 := dequeue_of_not_empty
      ({ n_enqueues := (n : Int) + 1, n_dequeues := n, mem_ptr := p,
         mem_span := fun _ => default } : RingBufferRange ContentType length)
      hin' hin (by simp)
    have hr2 := Reachable.dequeue _ _ _ hr1 h2
    simpa using hr2

theorem reachable_example_at_max : Reachable example_at_max := by
  have h := @reachable_diag Nat 4 _ _ (by decide) 0 (2 ^ 63 - 1) (by decide)
  have e : ((2 ^ 63 - 1 : Nat) : Int) = INT64_MAX := by decide
  rw [e] at h
  exact h

theorem live_of_empty [NeZero length] (s : RingBufferRange ContentType length)
    (h : s.n_enqueues = s.n_dequeues) : live s = [] := by
  simp [live, h]

/-- C1 fails as stated: the empty state with both counters at the largest `std::int64_t` is
reachable, `k = 1 ≤ 4`, and enqueueing one value has no defined result there. -/
theorem fifo_counterexample_at_max :
    Reachable example_at_max ∧ example_at_max.n_enqueues = example_at_max.n_dequeues ∧
      [7].length ≤ 4 ∧ enqueue_all example_at_max [7] = none := by
  refine ⟨reachable_example_at_max, rfl, by decide, ?_⟩
  have h : ¬ inInt64 (INT64_MAX + 1) := by decide
  have hsa : toU64 INT64_MAX < (toU64 INT64_MAX + 4) % 2 ^ 64 := by decide
  simp only [Nat.reducePow] at hsa
  simp [enqueue_all, enqueue, example_at_max, addI64, boolToInt, hsa, h]

/-- C1, amended: for every reachable state with no live entries, every list `vs` of at most
`length` values such that `n_enqueues + vs.length` does not exceed the largest `std::int64_t`:
enqueueing the values in order makes every call return `true`, and the following `vs.length`
calls of `dequeue` return exactly the values of `vs`, in the same order. -/
theorem fifo_order [Inhabited ContentType] [NeZero length] (hlen : has_single_bit length)
    (s : RingBufferRange ContentType length) (vs : List ContentType)
    (h : Reachable s) (hempty : s.n_enqueues = s.n_dequeues)
    (hk : vs.length ≤ length) (hmax : s.n_enqueues + (vs.length : Int) ≤ INT64_MAX) :
    ∃ s1 s2, enqueue_all s vs = some (List.replicate vs.length true, s1) ∧
      dequeue_n s1 vs.length = some (vs.map some, s2) := by
  have hinv := h.inv hlen
  obtain ⟨s1, hall, hinv1, hlive, he, hd⟩ := enqueue_all_spec hlen vs s hinv
    (by rw [hempty]; simp only [sub_self]; omega) hmax
  obtain ⟨s2, hdeq, -⟩ := dequeue_n_spec vs.length s1 hinv1 (by rw [he, hd, hempty]; omega)
  rw [hlive, live_of_empty s hempty, List.nil_append] at hdeq
  exact ⟨s1, s2, hall, hdeq⟩

theorem fifo_order_witness :
    ∃ s1 s2, enqueue_all (construct 0 : RingBufferRange Nat 4) [5, 6, 7] =
        some (List.replicate [5, 6, 7].length true, s1) ∧
      dequeue_n s1 [5, 6, 7].length = some ([5, 6, 7].map some, s2) :=
  fifo_order (by decide) (construct 0) [5, 6, 7] (Reachable.construct 0) rfl (by decide)
    (by decide)

/-- C6 fails as stated: the empty state with both counters at the largest `std::int64_t` is
reachable, and `enqueue` has no defined result there (the increment of `n_enqueues`
overflows). -/
theorem roundtrip_counterexample_at_max :
    Reachable example_at_max ∧ example_at_max.n_enqueues = example_at_max.n_dequeues ∧
      enqueue example_at_max 7 = none := by
  refine ⟨reachable_example_at_max, rfl, ?_⟩
  have h : ¬ inInt64 (INT64_MAX + 1) := by decide
  have hsa : toU64 INT64_MAX < (toU64 INT64_MAX + 4) % 2 ^ 64 := by decide
  simp only [Nat.reducePow] at hsa
  simp [enqueue, example_at_max, addI64, boolToInt, hsa, h]

/-- C6, amended: for every reachable state with no live entries whose `n_enqueues` is below the
largest `std::int64_t`, and every value `v`: `enqueue(v)` returns `true`, the next `dequeue()`
returns a present value equal to `v`, and a further `dequeue()` returns the empty optional. -/
theorem round_trip [Inhabited ContentType] [NeZero length] (hlen : has_single_bit length)
    (s : RingBufferRange ContentType length) (v : ContentType)
    (h : Reachable s) (hempty : s.n_enqueues = s.n_dequeues)
    (hmax : s.n_enqueues < INT64_MAX) :
    ∃ s1 s2 s3, enqueue s v = some (true, s1) ∧ dequeue s1 = some (some v, s2) ∧
      dequeue s2 = some (none, s3) := by
  have hinv := h.inv hlen
  have hpos := has_single_bit_pos hlen
  have h1 := enqueue_of_slot_available hlen s v hinv.1 hinv.inInt64_deq.2
    (le_trans hinv.1 hinv.2.1) hmax (by rw [hempty]; simp only [sub_self]; omega)
  have hinv1 := hinv.enqueue hlen h1
  have h2 : dequeue ({ s with
        n_enqueues := s.n_enqueues + 1,
        mem_span := Function.update s.mem_span (slot length (toU64 s.n_enqueues)) v } :
        RingBufferRange ContentType length) =
      some (some v, { s with
        n_enqueues := s.n_enqueues + 1,
        n_dequeues := s.n_dequeues + 1,
        mem_span := Function.update s.mem_span (slot length (toU64 s.n_enqueues)) v }) := by
    rw [dequeue_of_not_empty _ hinv1.inInt64_enq hinv1.inInt64_deq
      (show s.n_enqueues + 1 > s.n_dequeues by omega)]
    rw [hempty]
    simp only [Function.update_same]
  have hinv2 := hinv1.dequeue h2
  have h3 := dequeue_of_empty _ hinv2.inInt64_deq
    (show ¬ s.n_enqueues + 1 > s.n_dequeues + 1 by omega)
  exact ⟨_, _, _, h1, h2, h3⟩

theorem round_trip_witness :
    ∃ s1 s2 s3, enqueue (construct 0 : RingBufferRange Nat 4) 658 = some (true, s1) ∧
      dequeue s1 = some (some 658, s2) ∧ dequeue s2 = some (none, s3) :=
  round_trip (by decide) (construct 0) 658 (Reachable.construct 0) rfl (by decide)

end RingBufferRange

/-! ## Iteration -/

namespace RingBufferRange

variable {ContentType : Type} {length : Nat}

theorem begin_eq [NeZero length] (s : RingBufferRange ContentType length) :
    begin s = ⟨s.mem_ptr, ((toU64 s.n_dequeues % length : Nat) : Int)⟩ := by
  simp [begin, Iterator.ofPointers, slot]

theorem end_eq [NeZero length] (s : RingBufferRange ContentType length) :
    end_ s = ⟨s.mem_ptr, ((toU64 s.n_enqueues % length : Nat) : Int)⟩ := by
  simp [end_, Iterator.ofPointers, slot]

theorem iterator_eq_iff (b : Nat) (x y : Nat) :
    Iterator.eq ⟨b, (x : Int)⟩ ⟨b, (y : Int)⟩ = true ↔ x = y := by
  simp [Iterator.eq]

theorem pre_incr_eq (hlen : has_single_bit length) (b p : Nat) (hp : (p : Int) < INT64_MAX) :
    Iterator.pre_incr length ⟨b, (p : Int)⟩ = some ⟨b, (((p + 1) % length : Nat) : Int)⟩ := by
  have hl := has_single_bit_le hlen
  have hpos := has_single_bit_pos hlen
  have hadd : addI64 (p : Int) 1 = some ((p : Int) + 1) :=
    addI64_one (by unfold INT64_MIN; omega) hp
  have hu : toU64 ((p : Int) + 1) = p + 1 := by
    unfold toU64; unfold INT64_MAX at hp; omega
  have hlt : (p + 1) % length < length := Nat.mod_lt _ hpos
  have hi : toI64 ((p + 1) % length) = (((p + 1) % length : Nat) : Int) := by
    unfold toI64
    have h1 : (p + 1) % length % 2 ^ 64 = (p + 1) % length := Nat.mod_eq_of_lt (by omega)
    rw [h1, if_pos (by omega)]
  simp [Iterator.pre_incr, hadd, hu, hi]

theorem mod_ne_of_lt {d j n : Nat} (hj : 0 < j) (hjn : j < n) : d % n ≠ (d + j) % n := by
  intro h
  have hdvd : n ∣ d + j - d := (Nat.modEq_iff_dvd' (by omega)).mp h
  have := Nat.le_of_dvd (by omega) hdvd
  omega

theorem advance_spec (hlen : has_single_bit length) (b : Nat) (j d : Nat)
    (hmax : ((d + j : Nat) : Int) ≤ INT64_MAX) :
    Iterator.advance length j ⟨b, ((d % length : Nat) : Int)⟩ =
      some ⟨b, (((d + j) % length : Nat) : Int)⟩ := by
  induction j generalizing d with
  | zero => simp [Iterator.advance]
  | succ j ih =>
    have hle : d % length ≤ d := Nat.mod_le _ _
    have hp : ((d % length : Nat) : Int) < INT64_MAX := by
      unfold INT64_MAX at *; push_cast at hmax ⊢; omega
    have hstep := pre_incr_eq hlen b (d % length) hp
    rw [Nat.mod_add_mod] at hstep
    simp only [Iterator.advance, hstep, Option.some_bind]
    have e : d + 1 + j = d + (j + 1) := by omega
    have := ih (d + 1) (by rw [e]; exact hmax)
    rw [this, e]

theorem deref_eq [NeZero length] (hlen : has_single_bit length)
    (s : RingBufferRange ContentType length) (d : Nat) :
    deref s ⟨s.mem_ptr, ((d % length : Nat) : Int)⟩ = some (s.mem_span (slot length d)) := by
  have hl := has_single_bit_le hlen
  have hlt : d % length < length := Nat.mod_lt _ (has_single_bit_pos hlen)
  have hu : toU64 ((d % length : Nat) : Int) = d % length := by
    unfold toU64; omega
  unfold deref
  rw [if_pos rfl, dif_pos (by rw [hu]; exact hlt)]
  congr 2
  exact Fin.ext hu

end RingBufferRange

namespace RingBufferRange

variable {ContentType : Type} {length : Nat}

theorem range_map_shift {α : Type} (f : Nat → α) (d n : Nat) :
    ((List.range (n + 1)).map fun i => f (d + i)) =
      f d :: (List.range n).map fun i => f (d + 1 + i) := by
  rw [List.range_succ_eq_map, List.map_cons, List.map_map]
  simp only [Nat.add_zero, List.cons.injEq, true_and]
  apply List.map_congr_left
  intro i _
  simp only [Function.comp, Nat.succ_eq_add_one]
  congr 1
  omega

theorem iterate_spec [NeZero length] (hlen : has_single_bit length)
    (s : RingBufferRange ContentType length) (n : Nat) :
    ∀ d fuel : Nat, n < length → n < fuel → ((d + n : Nat) : Int) ≤ INT64_MAX →
      iterate s fuel ⟨s.mem_ptr, ((d % length : Nat) : Int)⟩
          ⟨s.mem_ptr, (((d + n) % length : Nat) : Int)⟩ =
        some ((List.range n).map fun i => s.mem_span (slot length (d + i))) := by
  induction n with
  | zero =>
    intro d fuel _ hfuel _
    obtain ⟨f, rfl⟩ : ∃ f, fuel = f + 1 := ⟨fuel - 1, by omega⟩
    rw [iterate, Nat.add_zero, (iterator_eq_iff _ _ _).mpr rfl, if_pos rfl]
    rfl
  | succ n ih =>
    intro d fuel hn hfuel hmax
    obtain ⟨f, rfl⟩ : ∃ f, fuel = f + 1 := ⟨fuel - 1, by omega⟩
    have hneq : Iterator.eq ⟨s.mem_ptr, ((d % length : Nat) : Int)⟩
        ⟨s.mem_ptr, (((d + (n + 1)) % length : Nat) : Int)⟩ = false := by
      rw [Bool.eq_false_iff]
      intro hc
      exact mod_ne_of_lt (Nat.succ_pos n) hn ((iterator_eq_iff _ _ _).mp hc)
    have hle : d % length ≤ d := Nat.mod_le _ _
    have hp : ((d % length : Nat) : Int) < INT64_MAX := by
      unfold INT64_MAX at *; push_cast at hmax ⊢; omega
    have hstep := pre_incr_eq hlen s.mem_ptr (d % length) hp
    rw [Nat.mod_add_mod] at hstep
    have e : d + 1 + n = d + (n + 1) := by omega
    have hrec := ih (d + 1) f (by omega) (by omega) (by rw [e]; exact hmax)
    rw [e] at hrec
    rw [range_map_shift (fun k => s.mem_span (slot length k)) d n, iterate, hneq]
    simp only [Bool.false_eq_true, if_false, deref_eq hlen s d, hstep, hrec]

theorem distance_spec (hlen : has_single_bit length) (b : Nat) (n : Nat) :
    ∀ d fuel : Nat, n < length → n < fuel → ((d + n : Nat) : Int) ≤ INT64_MAX →
      distance length fuel ⟨b, ((d % length : Nat) : Int)⟩
          ⟨b, (((d + n) % length : Nat) : Int)⟩ = some n := by
  induction n with
  | zero =>
    intro d fuel _ hfuel _
    obtain ⟨f, rfl⟩ : ∃ f, fuel = f + 1 := ⟨fuel - 1, by omega⟩
    rw [distance, Nat.add_zero, (iterator_eq_iff _ _ _).mpr rfl, if_pos rfl]
  | succ n ih =>
    intro d fuel hn hfuel hmax
    obtain ⟨f, rfl⟩ : ∃ f, fuel = f + 1 := ⟨fuel - 1, by omega⟩
    have hneq : Iterator.eq ⟨b, ((d % length : Nat) : Int)⟩
        ⟨b, (((d + (n + 1)) % length : Nat) : Int)⟩ = false := by
      rw [Bool.eq_false_iff]
      intro hc
      exact mod_ne_of_lt (Nat.succ_pos n) hn ((iterator_eq_iff _ _ _).mp hc)
    have hle : d % length ≤ d := Nat.mod_le _ _
    have hp : ((d % length : Nat) : Int) < INT64_MAX := by
      unfold INT64_MAX at *; push_cast at hmax ⊢; omega
    have hstep := pre_incr_eq hlen b (d % length) hp
    rw [Nat.mod_add_mod] at hstep
    have e : d + 1 + n = d + (n + 1) := by omega
    have hrec := ih (d + 1) f (by omega) (by omega) (by rw [e]; exact hmax)
    rw [e] at hrec
    rw [distance, hneq]
    simp only [Bool.false_eq_true, if_false, hstep, hrec]

/-- The iterators of a state that satisfies the invariant, in terms of the natural counters. -/
theorem begin_end_of_inv [NeZero length] {s : RingBufferRange ContentType length} (h : Inv s) :
    begin s = ⟨s.mem_ptr, ((s.n_dequeues.toNat % length : Nat) : Int)⟩ ∧
    end_ s = ⟨s.mem_ptr,
      (((s.n_dequeues.toNat + (s.n_enqueues - s.n_dequeues).toNat) % length : Nat) : Int)⟩ := by
  obtain ⟨h0, h1, h2, h3⟩ := h
  have hd : toU64 s.n_dequeues = s.n_dequeues.toNat := toU64_of_nonneg h0 (le_trans h1 h3)
  have he : toU64 s.n_enqueues = s.n_dequeues.toNat + (s.n_enqueues - s.n_dequeues).toNat := by
    rw [toU64_of_nonneg (le_trans h0 h1) h3]; omega
  rw [begin_eq, end_eq, hd, he]
  exact ⟨rfl, rfl⟩

theorem n_entries_eq_of_inv {s : RingBufferRange ContentType length} {m : Nat} (h : Inv s)
    (hm : n_entries s = some m) : (s.n_enqueues - s.n_dequeues).toNat = m := by
  rw [n_entries_of_inv h] at hm
  exact Option.some.inj hm

end RingBufferRange

/-! ## Contracts of the iterator range -/

namespace RingBufferRange

variable {ContentType : Type} {length : Nat}

theorem reachable_example_single : Reachable example_single :=
  Reachable.enqueue (construct 0) example_single 658 true (Reachable.construct 0) rfl

theorem occupancy_invariant_witness :
    0 ≤ example_single.n_dequeues ∧ example_single.n_dequeues ≤ example_single.n_enqueues ∧
      example_single.n_enqueues - example_single.n_dequeues ≤ ((4 : Nat) : Int) ∧
      ∃ n : Nat, n_entries example_single = some n ∧
        (n : Int) = example_single.n_enqueues - example_single.n_dequeues ∧ n ≤ 4 :=
  occupancy_invariant (by decide) example_single reachable_example_single

/-- C8: in every reachable state with `m = n_entries() < length`, the loop from `begin()` that
dereferences and pre-increments until the iterator equals `end()` terminates and produces
exactly `m` values; the `i`-th is the content of the slot at index `(n_dequeues + i) mod length`,
and the values are those that `m` successive calls of `dequeue()` return, in the same order.
The loop reads the buffer only: `begin`, `end_`, `deref` and `pre_incr` return no buffer. -/
theorem iteration_fifo [Inhabited ContentType] [NeZero length] (hlen : has_single_bit length)
    (s : RingBufferRange ContentType length) (m : Nat) (h : Reachable s)
    (hm : n_entries s = some m) (hlt : m < length) :
    ∃ vals : List ContentType,
      (∀ fuel, m < fuel → iterate s fuel (begin s) (end_ s) = some vals) ∧
      vals.length = m ∧
      (∀ i : Nat, i < m → ∃ j : Fin length,
        (j.val : Int) = (s.n_dequeues + (i : Int)) % (length : Int) ∧
        vals[i]? = some (s.mem_span j)) ∧
      ∃ s', dequeue_n s m = some (vals.map some, s') := by
  have hinv := h.inv hlen
  have hm' := n_entries_eq_of_inv hinv hm
  obtain ⟨hb, he⟩ := begin_end_of_inv hinv
  have hmax : ((s.n_dequeues.toNat + m : Nat) : Int) ≤ INT64_MAX := by
    have := hinv.1; have := hinv.2.1; have := hinv.2.2.2
    omega
  refine ⟨live s, ?_, ?_, ?_, ?_⟩
  · intro fuel hfuel
    have hl : live s =
        (List.range m).map fun i => s.mem_span (slot length (s.n_dequeues.toNat + i)) := by
      unfold live; rw [hm']
    rw [hb, he, hm', hl]
    exact iterate_spec hlen s m s.n_dequeues.toNat fuel hlt hfuel hmax
  · rw [live_length, hm']
  · intro i hi
    refine ⟨slot length (s.n_dequeues.toNat + i), ?_, ?_⟩
    · have h0 := hinv.1
      simp only [slot, Int.natCast_mod, Nat.cast_add, Int.toNat_of_nonneg h0]
    · simp [live, hm', hi]
  · obtain ⟨s', hs', -⟩ := dequeue_n_spec m s hinv (by
      have := hinv.2.1
      omega)
    exact ⟨s', hs'⟩

theorem iteration_fifo_witness :
    ∃ vals : List Nat,
      (∀ fuel, 1 < fuel → iterate example_single fuel (begin example_single)
        (end_ example_single) = some vals) ∧
      vals.length = 1 ∧
      (∀ i : Nat, i < 1 → ∃ j : Fin 4,
        (j.val : Int) = (example_single.n_dequeues + (i : Int)) % ((4 : Nat) : Int) ∧
        vals[i]? = some (example_single.mem_span j)) ∧
      ∃ s', dequeue_n example_single 1 = some (vals.map some, s') :=
  iteration_fifo (by decide) example_single 1 reachable_example_single (by decide) (by decide)

/-- C9: in every state with `n_entries() == length`, `begin()` compares equal to `end()`, so
the loop from `begin()` to `end()` yields no element and the counted distance is zero. -/
theorem full_buffer_aliasing [NeZero length] (hlen : has_single_bit length)
    (s : RingBufferRange ContentType length) (hfull : n_entries s = some length) :
    Iterator.eq (begin s) (end_ s) = true ∧
      (∀ fuel, 0 < fuel → iterate s fuel (begin s) (end_ s) = some []) ∧
      (∀ fuel, 0 < fuel → distance length fuel (begin s) (end_ s) = some 0) := by
  have hn : toU64 (s.n_enqueues - s.n_dequeues) = length := by
    unfold n_entries subI64 at hfull
    by_cases hr : inInt64 (s.n_enqueues - s.n_dequeues)
    · simpa [hr] using hfull
    · simp [hr] at hfull
  have hb : toU64 s.n_enqueues = (toU64 s.n_dequeues + length) % 2 ^ 64 := by
    unfold toU64 at *; omega
  have hmod : toU64 s.n_enqueues % length = toU64 s.n_dequeues % length := by
    rw [hb, Nat.mod_mod_of_dvd _ (has_single_bit_dvd hlen), Nat.add_mod_right]
  have heq : Iterator.eq (begin s) (end_ s) = true := by
    rw [begin_eq, end_eq, hmod]
    exact (iterator_eq_iff _ _ _).mpr rfl
  refine ⟨heq, ?_, ?_⟩
  · intro fuel hfuel
    obtain ⟨f, rfl⟩ : ∃ f, fuel = f + 1 := ⟨fuel - 1, by omega⟩
    rw [iterate, heq, if_pos rfl]
  · intro fuel hfuel
    obtain ⟨f, rfl⟩ : ∃ f, fuel = f + 1 := ⟨fuel - 1, by omega⟩
    rw [distance, heq, if_pos rfl]

theorem full_buffer_aliasing_witness :
    n_entries example_full = some 4 ∧
      Iterator.eq (begin example_full) (end_ example_full) = true ∧
      (∀ fuel, 0 < fuel → iterate example_full fuel (begin example_full) (end_ example_full) =
        some []) ∧
      (∀ fuel, 0 < fuel → distance 4 fuel (begin example_full) (end_ example_full) = some 0) :=
  ⟨by decide, full_buffer_aliasing (by decide) example_full (by decide)⟩

/-- C10: in every reachable state with `m = n_entries() < length`, `m` pre-increments take
`begin()` to an iterator equal to `end()`, no smaller number of pre-increments does, and the
counted distance of the range is `m`. -/
theorem iteration_distance [Inhabited ContentType] [NeZero length]
    (hlen : has_single_bit length) (s : RingBufferRange ContentType length) (m : Nat)
    (h : Reachable s) (hm : n_entries s = some m) (hlt : m < length) :
    (∃ it, Iterator.advance length m (begin s) = some it ∧ Iterator.eq it (end_ s) = true) ∧
      (∀ j, j < m → ∃ it, Iterator.advance length j (begin s) = some it ∧
        Iterator.eq it (end_ s) = false) ∧
      (∀ fuel, m < fuel → distance length fuel (begin s) (end_ s) = some m) := by
  have hinv := h.inv hlen
  have hm' := n_entries_eq_of_inv hinv hm
  obtain ⟨hb, he⟩ := begin_end_of_inv hinv
  have hmax : ((s.n_dequeues.toNat + m : Nat) : Int) ≤ INT64_MAX := by
    have := hinv.1; have := hinv.2.1; have := hinv.2.2.2
    omega
  rw [hb, he, hm']
  refine ⟨⟨_, advance_spec hlen _ m _ hmax, (iterator_eq_iff _ _ _).mpr rfl⟩, ?_, ?_⟩
  · intro j hj
    refine ⟨_, advance_spec hlen _ j _ (by
      unfold INT64_MAX at *; push_cast at hmax ⊢; omega), ?_⟩
    rw [Bool.eq_false_iff]
    intro hc
    have hmod := (iterator_eq_iff _ _ _).mp hc
    have e : s.n_dequeues.toNat + m = s.n_dequeues.toNat + j + (m - j) := by omega
    rw [e] at hmod
    exact mod_ne_of_lt (by omega) (by omega) hmod
  · intro fuel hfuel
    exact distance_spec hlen _ m _ fuel hlt hfuel hmax

theorem iteration_distance_witness :
    (∃ it, Iterator.advance 4 1 (begin example_single) = some it ∧
        Iterator.eq it (end_ example_single) = true) ∧
      (∀ j, j < 1 → ∃ it, Iterator.advance 4 j (begin example_single) = some it ∧
        Iterator.eq it (end_ example_single) = false) ∧
      (∀ fuel, 1 < fuel → distance 4 fuel (begin example_single) (end_ example_single) =
        some 1) :=
  iteration_distance (by decide) example_single 1 reachable_example_single (by decide)
    (by decide)

end RingBufferRange

/-! ## Results of single calls in an arbitrary state -/

namespace RingBufferRange

variable {ContentType : Type} {length : Nat}

theorem addI64_some {a b n : Int} (h : addI64 a b = some n) : n = a + b ∧ inInt64 (a + b) := by
  unfold addI64 at h
  by_cases hr : inInt64 (a + b)
  · rw [if_pos hr] at h
    exact ⟨(Option.some.inj h).symm, hr⟩
  · rw [if_neg hr] at h
    cases h

theorem addI64_eq_none {a b : Int} : addI64 a b = none ↔ ¬ inInt64 (a + b) := by
  unfold addI64
  by_cases hr : inInt64 (a + b)
  · simp [hr]
  · simp [hr]

theorem enqueue_result [NeZero length] {s s' : RingBufferRange ContentType length}
    {v : ContentType} {b : Bool} (h : enqueue s v = some (b, s')) :
    b = decide (toU64 s.n_enqueues < (toU64 s.n_dequeues + length) % 2 ^ 64) ∧
      s' = { s with
        n_enqueues := s.n_enqueues + boolToInt b,
        mem_span := Function.update s.mem_span (slot length (toU64 s.n_enqueues))
          (if b then v else s.mem_span (slot length (toU64 s.n_enqueues))) } := by
  unfold enqueue at h
  simp only [Option.map_eq_some'] at h
  obtain ⟨n, hn, heq⟩ := h
  obtain ⟨hb, hs⟩ := Prod.mk.inj heq
  obtain ⟨hn', -⟩ := addI64_some hn
  subst hb
  subst hn'
  exact ⟨rfl, hs.symm⟩

theorem boolToInt_nonneg (b : Bool) : 0 ≤ boolToInt b := by
  cases b <;> simp [boolToInt]

theorem enqueue_eq_none_iff [NeZero length] (s : RingBufferRange ContentType length)
    (v : ContentType) (he : inInt64 s.n_enqueues) :
    enqueue s v = none ↔
      (toU64 s.n_enqueues < (toU64 s.n_dequeues + length) % 2 ^ 64 ∧
        s.n_enqueues = INT64_MAX) := by
  unfold enqueue
  simp only [Option.map_eq_none', addI64_eq_none]
  unfold inInt64 INT64_MIN INT64_MAX at *
  by_cases hsa : toU64 s.n_enqueues < (toU64 s.n_dequeues + length) % 2 ^ 64
  · simp only [hsa, decide_True, boolToInt, if_true, true_and]
    omega
  · simp only [hsa, decide_False, boolToInt, Bool.false_eq_true, if_false, false_and,
      iff_false, not_not]
    omega

end RingBufferRange

/-! ## `emplace`, `pop` and the monotonic counters -/

namespace RingBufferRange

variable {ContentType : Type} {length : Nat}

/-- C11 fails as stated in its consequence for a buffer with a free slot: with both counters at
the largest `std::int64_t` the difference is `0 < 4` but the increment overflows and `emplace`
has no defined result; with both counters at `-1` the difference is `0 < 4` but the unsigned
capacity test is false and `emplace` returns `false`. -/
theorem emplace_counterexample_at_bounds :
    (inInt64 example_at_max.n_enqueues ∧ inInt64 example_at_max.n_dequeues ∧
      example_at_max.n_enqueues - example_at_max.n_dequeues < 4 ∧
      emplace example_at_max (fun x : Nat => x + 1) 6 = none) ∧
    (inInt64 example_negative.n_enqueues ∧ inInt64 example_negative.n_dequeues ∧
      example_negative.n_enqueues - example_negative.n_dequeues < 4 ∧
      emplace example_negative (fun x : Nat => x + 1) 6 = some (false, example_negative)) := by
  refine ⟨⟨by decide, by decide, by decide, ?_⟩, ⟨by decide, by decide, by decide, ?_⟩⟩
  · rw [emplace_eq_enqueue]
    exact (enqueue_eq_none_iff example_at_max _ (by decide)).mpr ⟨by decide, rfl⟩
  · rw [emplace_eq_enqueue]
    exact enqueue_of_not_slot_available example_negative _ (by decide) (by decide)

/-- C11, amended: in every state and for all constructor arguments, `emplace(args...)` has the
same result (returned boolean, both counters, all slots) as `enqueue` of the constructed value.
With `0 ≤ n_enqueues`, `n_enqueues` below the largest `std::int64_t` and a free slot it returns
`true`, and if the buffer was empty the following `dequeue()` returns the constructed value.
With `n_entries() == length` it returns `false` and leaves the state unchanged. -/
theorem emplace_agrees_with_enqueue [NeZero length] (hlen : has_single_bit length)
    {Args : Type} (s : RingBufferRange ContentType length) (build : Args → ContentType)
    (args : Args) :
    emplace s build args = enqueue s (build args) ∧
    (inInt64 s.n_dequeues → 0 ≤ s.n_enqueues → s.n_enqueues < INT64_MAX →
      s.n_enqueues - s.n_dequeues < (length : Int) →
      ∃ s1, emplace s build args = some (true, s1) ∧
        (s.n_enqueues = s.n_dequeues → ∃ s2, dequeue s1 = some (some (build args), s2))) ∧
    (inInt64 s.n_enqueues → n_entries s = some length →
      emplace s build args = some (false, s)) := by
  refine ⟨rfl, ?_, ?_⟩
  · intro hd he0 he1 hfree
    refine ⟨_, enqueue_of_free hlen s (build args) hd he0 he1 hfree, ?_⟩
    intro hempty
    have hin1 : inInt64 (s.n_enqueues + 1) := by
      unfold inInt64 INT64_MIN INT64_MAX at *; omega
    refine ⟨{ s with
      n_enqueues := s.n_enqueues + 1,
      n_dequeues := s.n_dequeues + 1,
      mem_span := Function.update s.mem_span (slot length (toU64 s.n_enqueues)) (build args) },
      ?_⟩
    rw [dequeue_of_not_empty ({ s with
        n_enqueues := s.n_enqueues + 1,
        mem_span := Function.update s.mem_span (slot length (toU64 s.n_enqueues)) (build args) } :
        RingBufferRange ContentType length) hin1 hd
      (show s.n_enqueues + 1 > s.n_dequeues by omega)]
    rw [hempty]
    simp only [Function.update_same]
  · intro he hfull
    apply enqueue_of_not_slot_available s (build args) he
    have hn : toU64 (s.n_enqueues - s.n_dequeues) = length := by
      unfold n_entries subI64 at hfull
      by_cases hr : inInt64 (s.n_enqueues - s.n_dequeues)
      · simpa [hr] using hfull
      · simp [hr] at hfull
    unfold toU64 at *
    omega

theorem emplace_agrees_with_enqueue_witness :
    (emplace (construct 0 : RingBufferRange Nat 4) (fun x : Nat => x + 1) 6 =
        enqueue (construct 0) 7 ∧
      ∃ s1, emplace (construct 0 : RingBufferRange Nat 4) (fun x : Nat => x + 1) 6 =
          some (true, s1) ∧
        ∃ s2, dequeue s1 = some (some 7, s2)) ∧
    emplace example_full (fun x : Nat => x + 1) 6 = some (false, example_full) := by
  have h1 := emplace_agrees_with_enqueue (by decide) (construct 0 : RingBufferRange Nat 4)
    (fun x : Nat => x + 1) 6
  have h2 := emplace_agrees_with_enqueue (by decide) example_full (fun x : Nat => x + 1) 6
  obtain ⟨s1, hs1, hdeq⟩ := h1.2.1 (by decide) (by decide) (by decide) (by decide)
  exact ⟨⟨h1.1, s1, hs1, hdeq rfl⟩, h2.2.2 (by decide) (by decide)⟩

/-- C12: in every state `pop()` is `dequeue()` with the value discarded: the state after the
call is the same and `pop()` returns `true` exactly when `dequeue()` returns a present value.
Both calls return; `pop()` returns `false` exactly when there is no live position
(`n_enqueues ≤ n_dequeues`, which is `n_enqueues == n_dequeues` whenever
`n_dequeues ≤ n_enqueues`), and then the state is unchanged. -/
theorem pop_agrees_with_dequeue [NeZero length] (s : RingBufferRange ContentType length) :
    pop s = (dequeue s).map (fun p => (p.1.isSome, p.2)) ∧
    (inInt64 s.n_enqueues → inInt64 s.n_dequeues →
      ∃ b r s', pop s = some (b, s') ∧ dequeue s = some (r, s') ∧
        (b = true ↔ r.isSome = true) ∧
        (b = false ↔ s.n_enqueues ≤ s.n_dequeues) ∧
        (s.n_dequeues ≤ s.n_enqueues → (b = false ↔ s.n_enqueues = s.n_dequeues)) ∧
        (b = false → s' = s)) := by
  constructor
  · unfold pop dequeue
    by_cases hne : s.n_dequeues < s.n_enqueues
    · have hgt : s.n_enqueues > s.n_dequeues := hne
      simp [hne, hgt, Option.map_map, Function.comp]
      rfl
    · have hgt : ¬ s.n_enqueues > s.n_dequeues := hne
      simp [hne, hgt, Option.map_map, Function.comp]
      rfl
  · intro he hd
    by_cases hne : s.n_dequeues < s.n_enqueues
    · refine ⟨true, _, _, pop_of_not_empty s he hd hne, dequeue_of_not_empty s he hd hne,
        by simp, ?_, ?_, ?_⟩
      · constructor
        · intro hc; cases hc
        · intro hc; omega
      · intro _
        constructor
        · intro hc; cases hc
        · intro hc; omega
      · intro hc; cases hc
    · refine ⟨false, _, _, pop_of_empty s hd hne, dequeue_of_empty s hd hne,
        by simp, ?_, ?_, ?_⟩
      · constructor
        · intro _; omega
        · intro _; rfl
      · intro hle
        constructor
        · intro _; omega
        · intro _; rfl
      · intro _; rfl

theorem pop_agrees_with_dequeue_witness :
    pop example_one = (dequeue example_one).map (fun p => (p.1.isSome, p.2)) ∧
      ∃ b r s', pop example_one = some (b, s') ∧ dequeue example_one = some (r, s') ∧
        (b = true ↔ r.isSome = true) ∧
        (b = false ↔ example_one.n_enqueues ≤ example_one.n_dequeues) ∧
        (example_one.n_dequeues ≤ example_one.n_enqueues →
          (b = false ↔ example_one.n_enqueues = example_one.n_dequeues)) ∧
        (b = false → s' = example_one) :=
  ⟨(pop_agrees_with_dequeue example_one).1,
    (pop_agrees_with_dequeue example_one).2 (by decide) (by decide)⟩

end RingBufferRange

namespace RingBufferRange

variable {ContentType : Type} {length : Nat}

/-- C14 fails as stated: the empty state with both counters at the largest `std::int64_t` is
reachable and its capacity test is true, so `enqueue` and `emplace` take the branch that
returns `true`; but `n_enqueues + 1` is not a `std::int64_t`, so the counter cannot increase by
exactly one and neither call has a defined result. -/
theorem monotonic_counterexample_at_max :
    Reachable example_at_max ∧
      toU64 example_at_max.n_enqueues < (toU64 example_at_max.n_dequeues + 4) % 2 ^ 64 ∧
      ¬ inInt64 (example_at_max.n_enqueues + 1) ∧
      enqueue example_at_max 7 = none ∧
      emplace example_at_max (fun x : Nat => x + 1) 6 = none ∧
      ¬ (∃ b s', enqueue example_at_max 7 = some (b, s') ∧
        (b = true → s'.n_enqueues = example_at_max.n_enqueues + 1)) := by
  have hnone : ∀ v, enqueue example_at_max v = none := fun v =>
    (enqueue_eq_none_iff example_at_max v (by decide)).mpr ⟨by decide, rfl⟩
  refine ⟨reachable_example_at_max, by decide, by decide, hnone 7, ?_, ?_⟩
  · rw [emplace_eq_enqueue]
    exact hnone _
  · rintro ⟨b, s', h, -⟩
    rw [hnone 7] at h
    cases h

/-- C14, amended: in every state, `dequeue` and `pop` return, add one to `n_dequeues` exactly
when a value was removed and leave `n_enqueues` unchanged. If `n_enqueues` is below the largest
`std::int64_t` or the capacity test is false, `enqueue` and `emplace` return the capacity test,
add one to `n_enqueues` exactly when they return `true` and leave `n_dequeues` unchanged. So no
such call decreases a counter. The only calls without a result are the insertions with a true
capacity test at the largest `std::int64_t`. `n_entries` returns whenever
`0 ≤ n_dequeues ≤ n_enqueues`; `n_entries`, `begin` and `end_` return no buffer. -/
theorem counters_monotonic [NeZero length] (s : RingBufferRange ContentType length)
    (he : inInt64 s.n_enqueues) (hd : inInt64 s.n_dequeues) :
    ((s.n_enqueues < INT64_MAX ∨
        ¬ toU64 s.n_enqueues < (toU64 s.n_dequeues + length) % 2 ^ 64) →
      (∀ v, ∃ b s', enqueue s v = some (b, s') ∧
        (b = true ↔ toU64 s.n_enqueues < (toU64 s.n_dequeues + length) % 2 ^ 64) ∧
        (b = true → s'.n_enqueues = s.n_enqueues + 1) ∧
        (b = false → s'.n_enqueues = s.n_enqueues) ∧
        s.n_enqueues ≤ s'.n_enqueues ∧ s'.n_dequeues = s.n_dequeues) ∧
      (∀ (Args : Type) (build : Args → ContentType) (args : Args),
        ∃ b s', emplace s build args = some (b, s') ∧
        (b = true ↔ toU64 s.n_enqueues < (toU64 s.n_dequeues + length) % 2 ^ 64) ∧
        (b = true → s'.n_enqueues = s.n_enqueues + 1) ∧
        (b = false → s'.n_enqueues = s.n_enqueues) ∧
        s.n_enqueues ≤ s'.n_enqueues ∧ s'.n_dequeues = s.n_dequeues)) ∧
    (∃ r s', dequeue s = some (r, s') ∧
      (r.isSome = true ↔ s.n_enqueues > s.n_dequeues) ∧
      (r.isSome = true → s'.n_dequeues = s.n_dequeues + 1) ∧
      (r = none → s'.n_dequeues = s.n_dequeues) ∧
      s.n_dequeues ≤ s'.n_dequeues ∧ s'.n_enqueues = s.n_enqueues) ∧
    (∃ b s', pop s = some (b, s') ∧
      (b = true ↔ s.n_dequeues < s.n_enqueues) ∧
      (b = true → s'.n_dequeues = s.n_dequeues + 1) ∧
      (b = false → s'.n_dequeues = s.n_dequeues) ∧
      s.n_dequeues ≤ s'.n_dequeues ∧ s'.n_enqueues = s.n_enqueues) ∧
    (∀ v, enqueue s v = none ↔
      (toU64 s.n_enqueues < (toU64 s.n_dequeues + length) % 2 ^ 64 ∧
        s.n_enqueues = INT64_MAX)) ∧
    (∀ (Args : Type) (build : Args → ContentType) (args : Args),
      emplace s build args = none ↔
        (toU64 s.n_enqueues < (toU64 s.n_dequeues + length) % 2 ^ 64 ∧
          s.n_enqueues = INT64_MAX)) ∧
    (0 ≤ s.n_dequeues → s.n_dequeues ≤ s.n_enqueues →
      ∃ n : Nat, n_entries s = some n ∧ (n : Int) = s.n_enqueues - s.n_dequeues) := by
  have key : (s.n_enqueues < INT64_MAX ∨
        ¬ toU64 s.n_enqueues < (toU64 s.n_dequeues + length) % 2 ^ 64) →
      ∀ v, ∃ b s', enqueue s v = some (b, s') ∧
        (b = true ↔ toU64 s.n_enqueues < (toU64 s.n_dequeues + length) % 2 ^ 64) ∧
        (b = true → s'.n_enqueues = s.n_enqueues + 1) ∧
        (b = false → s'.n_enqueues = s.n_enqueues) ∧
        s.n_enqueues ≤ s'.n_enqueues ∧ s'.n_dequeues = s.n_dequeues := by
    intro hok v
    cases hres : enqueue s v with
    | none =>
      exfalso
      obtain ⟨hsa, hmax⟩ := (enqueue_eq_none_iff s v he).mp hres
      rcases hok with hlt | hns
      · omega
      · exact hns hsa
    | some p =>
      obtain ⟨b, s'⟩ := p
      obtain ⟨hb, rfl⟩ := enqueue_result hres
      refine ⟨b, _, rfl, ?_, ?_, ?_, ?_, rfl⟩
      · rw [hb, decide_eq_true_iff]
      · intro hbt; simp [hbt, boolToInt]
      · intro hbf; simp [hbf, boolToInt]
      · have := boolToInt_nonneg b
        simp only; omega
  refine ⟨fun hok => ⟨key hok, ?_⟩, ?_, ?_, ?_, ?_, ?_⟩
  · intro Args build args
    exact key hok (build args)
  · by_cases hne : s.n_enqueues > s.n_dequeues
    · refine ⟨_, _, dequeue_of_not_empty s he hd hne, ?_, ?_, ?_, ?_, rfl⟩
      · simp [hne]
      · intro _; rfl
      · intro hc; cases hc
      · simp
    · refine ⟨_, _, dequeue_of_empty s hd hne, ?_, ?_, ?_, ?_, rfl⟩
      · simp [hne]
      · intro hc; cases hc
      · intro _; rfl
      · exact le_refl _
  · by_cases hne : s.n_dequeues < s.n_enqueues
    · refine ⟨_, _, pop_of_not_empty s he hd hne, ?_, ?_, ?_, ?_, rfl⟩
      · simp [hne]
      · intro _; rfl
      · intro hc; cases hc
      · simp
    · refine ⟨_, _, pop_of_empty s hd hne, ?_, ?_, ?_, ?_, rfl⟩
      · simp [hne]
      · intro hc; cases hc
      · intro _; rfl
      · exact le_refl _
  · intro v
    exact enqueue_eq_none_iff s v he
  · intro Args build args
    rw [emplace_eq_enqueue]
    exact enqueue_eq_none_iff s (build args) he
  · intro h0 h1
    have hr : inInt64 (s.n_enqueues - s.n_dequeues) := by
      unfold inInt64 INT64_MIN INT64_MAX at *; omega
    have hu : toU64 (s.n_enqueues - s.n_dequeues) = (s.n_enqueues - s.n_dequeues).toNat :=
      toU64_of_nonneg (by omega) hr.2
    refine ⟨(s.n_enqueues - s.n_dequeues).toNat, by simp [n_entries, subI64, hr, hu], ?_⟩
    omega

theorem counters_monotonic_witness :
    ((∀ v, ∃ b s', enqueue example_one v = some (b, s') ∧
        (b = true ↔ toU64 example_one.n_enqueues < (toU64 example_one.n_dequeues + 4) % 2 ^ 64) ∧
        (b = true → s'.n_enqueues = example_one.n_enqueues + 1) ∧
        (b = false → s'.n_enqueues = example_one.n_enqueues) ∧
        example_one.n_enqueues ≤ s'.n_enqueues ∧ s'.n_dequeues = example_one.n_dequeues) ∧
      (∀ (Args : Type) (build : Args → Nat) (args : Args),
        ∃ b s', emplace example_one build args = some (b, s') ∧
        (b = true ↔ toU64 example_one.n_enqueues < (toU64 example_one.n_dequeues + 4) % 2 ^ 64) ∧
        (b = true → s'.n_enqueues = example_one.n_enqueues + 1) ∧
        (b = false → s'.n_enqueues = example_one.n_enqueues) ∧
        example_one.n_enqueues ≤ s'.n_enqueues ∧ s'.n_dequeues = example_one.n_dequeues)) ∧
    (∃ r s', dequeue example_one = some (r, s') ∧
      (r.isSome = true ↔ example_one.n_enqueues > example_one.n_dequeues) ∧
      (r.isSome = true → s'.n_dequeues = example_one.n_dequeues + 1) ∧
      (r = none → s'.n_dequeues = example_one.n_dequeues) ∧
      example_one.n_dequeues ≤ s'.n_dequeues ∧ s'.n_enqueues = example_one.n_enqueues) ∧
    (∃ b s', pop example_one = some (b, s') ∧
      (b = true ↔ example_one.n_dequeues < example_one.n_enqueues) ∧
      (b = true → s'.n_dequeues = example_one.n_dequeues + 1) ∧
      (b = false → s'.n_dequeues = example_one.n_dequeues) ∧
      example_one.n_dequeues ≤ s'.n_dequeues ∧ s'.n_enqueues = example_one.n_enqueues) ∧
    (∃ n : Nat, n_entries example_one = some n ∧
      (n : Int) = example_one.n_enqueues - example_one.n_dequeues) := by
  have h := counters_monotonic example_one (by decide) (by decide)
  exact ⟨h.1 (Or.inl (by decide)), h.2.1, h.2.2.1, h.2.2.2.2.2 (by decide) (by decide)⟩

/-- C18: in every reachable state, if `enqueue(v)` or `emplace(args...)` returns `true`, the
slot it writes, `n_enqueues mod length`, differs from `k mod length` for every live logical
position `n_dequeues ≤ k < n_enqueues`, and the content of the slot of every live position is
the same after the call as before it. -/
theorem live_slots_preserved [Inhabited ContentType] [NeZero length]
    (hlen : has_single_bit length) (s : RingBufferRange ContentType length)
    (h : Reachable s) :
    (∀ v s', enqueue s v = some (true, s') →
      ∀ k : Int, s.n_dequeues ≤ k → k < s.n_enqueues →
        k % (length : Int) ≠ s.n_enqueues % (length : Int) ∧
        s'.mem_span (slot length (toU64 k)) = s.mem_span (slot length (toU64 k))) ∧
    (∀ (Args : Type) (build : Args → ContentType) (args : Args) s',
      emplace s build args = some (true, s') →
      ∀ k : Int, s.n_dequeues ≤ k → k < s.n_enqueues →
        k % (length : Int) ≠ s.n_enqueues % (length : Int) ∧
        s'.mem_span (slot length (toU64 k)) = s.mem_span (slot length (toU64 k))) := by
  have hinv := h.inv hlen
  have key : ∀ v s', enqueue s v = some (true, s') →
      ∀ k : Int, s.n_dequeues ≤ k → k < s.n_enqueues →
        k % (length : Int) ≠ s.n_enqueues % (length : Int) ∧
        s'.mem_span (slot length (toU64 k)) = s.mem_span (slot length (toU64 k)) := by
    intro v s' hstep k hk0 hk1
    obtain ⟨hb, rfl⟩ := enqueue_result hstep
    obtain ⟨h0, h1, h2, h3⟩ := hinv
    have hsa : toU64 s.n_enqueues < (toU64 s.n_dequeues + length) % 2 ^ 64 :=
      of_decide_eq_true hb.symm
    have hfree := (slot_available_iff hlen h0 (le_trans h1 h3) (le_trans h0 h1) h3).mp hsa
    have hku : toU64 k = k.toNat := toU64_of_nonneg (le_trans h0 hk0) (by omega)
    have heu : toU64 s.n_enqueues = s.n_enqueues.toNat := toU64_of_nonneg (le_trans h0 h1) h3
    have hne : slot length (toU64 k) ≠ slot length (toU64 s.n_enqueues) := by
      rw [hku, heu]
      apply slot_ne <;> omega
    refine ⟨?_, ?_⟩
    · intro hc
      apply hne
      apply Fin.ext
      have e1 := slot_val_cast hlen k
      have e2 := slot_val_cast hlen s.n_enqueues
      rw [← e2] at hc
      rw [← e1] at hc
      exact_mod_cast hc
    · simp only
      exact Function.update_noteq hne _ _
  refine ⟨key, ?_⟩
  intro Args build args s' hstep
  exact key (build args) s' hstep

theorem live_slots_preserved_witness :
    enqueue example_single 7 = some (true, example_two) ∧
      (0 : Int) % ((4 : Nat) : Int) ≠ example_single.n_enqueues % ((4 : Nat) : Int) ∧
      example_two.mem_span (slot 4 (toU64 0)) = example_single.mem_span (slot 4 (toU64 0)) :=
  ⟨rfl, (live_slots_preserved (by decide) example_single reachable_example_single).1 7
    example_two rfl 0 (by decide) (by decide)⟩

end RingBufferRange

/-! ## Iterator stepping and bounds -/

namespace RingBufferRange

variable {ContentType : Type} {length : Nat}

theorem advance_any (hlen : has_single_bit length) (hfit : array_fits length) (b : Nat)
    (k : Nat) : ∀ p : Nat, p < length →
      Iterator.advance length k ⟨b, (p : Int)⟩ =
        some ⟨b, (((p + k) % length : Nat) : Int)⟩ := by
  induction k with
  | zero =>
    intro p hp
    rw [Nat.add_zero, Nat.mod_eq_of_lt hp]
    rfl
  | succ k ih =>
    intro p hp
    have hpm : (p : Int) < INT64_MAX := by
      unfold array_fits PTRDIFF_MAX at hfit; unfold INT64_MAX; omega
    have hstep := pre_incr_eq hlen b p hpm
    have hlt : (p + 1) % length < length := Nat.mod_lt _ (has_single_bit_pos hlen)
    simp only [Iterator.advance, hstep, Option.some_bind]
    rw [ih _ hlt, Nat.mod_add_mod]
    have e : p + 1 + k = p + (k + 1) := by omega
    rw [e]

/-- C16: for every iterator with position `p` in `[0, length)`, pre-increment yields the same
base and position `(p + 1) mod length` (from `length - 1` to `0`); post-increment returns the
original iterator and advances the operand in the same way; and `length` increments lead back
to an iterator equal to the original. -/
theorem iterator_step_mod (hlen : has_single_bit length) (hfit : array_fits length)
    (it : Iterator) (h0 : 0 ≤ it.position) (h1 : it.position < (length : Int)) :
    Iterator.pre_incr length it =
        some ⟨it.base_ptr, (it.position + 1) % (length : Int)⟩ ∧
      (it.position = (length : Int) - 1 → (it.position + 1) % (length : Int) = 0) ∧
      Iterator.post_incr length it =
        some (it, ⟨it.base_ptr, (it.position + 1) % (length : Int)⟩) ∧
      (∃ it', Iterator.advance length length it = some it' ∧ Iterator.eq it' it = true) := by
  obtain ⟨b, pos⟩ := it
  simp only at h0 h1 ⊢
  obtain ⟨p, rfl⟩ : ∃ p : Nat, pos = (p : Int) := ⟨pos.toNat, by omega⟩
  have hp : p < length := by omega
  have hpm : (p : Int) < INT64_MAX := by
    unfold array_fits PTRDIFF_MAX at hfit; unfold INT64_MAX; omega
  have hstep : Iterator.pre_incr length ⟨b, (p : Int)⟩ =
      some ⟨b, ((p : Int) + 1) % (length : Int)⟩ := by
    rw [pre_incr_eq hlen b p hpm, Int.natCast_mod]
    rfl
  refine ⟨hstep, ?_, ?_, ?_⟩
  · intro hlast
    rw [hlast, sub_add_cancel, Int.emod_self]
  · unfold Iterator.post_incr
    rw [hstep]
    rfl
  · refine ⟨_, advance_any hlen hfit b length p hp, ?_⟩
    rw [Nat.add_mod_right, Nat.mod_eq_of_lt hp]
    exact (iterator_eq_iff _ _ _).mpr rfl

theorem iterator_step_mod_witness :
    Iterator.pre_incr 4 ⟨0, 3⟩ = some ⟨0, ((3 : Int) + 1) % ((4 : Nat) : Int)⟩ ∧
      ((3 : Int) = ((4 : Nat) : Int) - 1 → ((3 : Int) + 1) % ((4 : Nat) : Int) = 0) ∧
      Iterator.post_incr 4 ⟨0, 3⟩ =
        some (⟨0, 3⟩, ⟨0, ((3 : Int) + 1) % ((4 : Nat) : Int)⟩) ∧
      (∃ it', Iterator.advance 4 4 ⟨0, 3⟩ = some it' ∧ Iterator.eq it' ⟨0, 3⟩ = true) :=
  iterator_step_mod (by decide) (by decide) ⟨0, 3⟩ (by decide) (by decide)

/-- C13: in every state the slot indices that `enqueue`, `emplace`, `dequeue`, `begin` and
`end_` compute lie in `[0, length)`; every iterator obtained from `begin()` or `end()` and
advanced any number of times exists, has a position in `[0, length)` and can be dereferenced
(the access is inside the storage). -/
theorem indexing_total [NeZero length] (hlen : has_single_bit length)
    (hfit : array_fits length) (s : RingBufferRange ContentType length) :
    toU64 s.n_enqueues % length < length ∧ toU64 s.n_dequeues % length < length ∧
      (slot length (toU64 s.n_enqueues)).val = toU64 s.n_enqueues % length ∧
      (slot length (toU64 s.n_dequeues)).val = toU64 s.n_dequeues % length ∧
      (∀ k, ∃ it, Iterator.advance length k (begin s) = some it ∧
        0 ≤ it.position ∧ it.position < (length : Int) ∧ ∃ x, deref s it = some x) ∧
      (∀ k, ∃ it, Iterator.advance length k (end_ s) = some it ∧
        0 ≤ it.position ∧ it.position < (length : Int) ∧ ∃ x, deref s it = some x) := by
  have hpos := has_single_bit_pos hlen
  have key : ∀ (p k : Nat), p < length →
      ∃ it, Iterator.advance length k ⟨s.mem_ptr, (p : Int)⟩ = some it ∧
        0 ≤ it.position ∧ it.position < (length : Int) ∧ ∃ x, deref s it = some x := by
    intro p k hp
    have hlt : (p + k) % length < length := Nat.mod_lt _ hpos
    refine ⟨_, advance_any hlen hfit s.mem_ptr k p hp, ?_, ?_, _, deref_eq hlen s (p + k)⟩
    · exact Int.natCast_nonneg _
    · show (((p + k) % length : Nat) : Int) < (length : Int)
      exact_mod_cast hlt
  refine ⟨Nat.mod_lt _ hpos, Nat.mod_lt _ hpos, rfl, rfl, ?_, ?_⟩
  · intro k
    rw [begin_eq]
    exact key _ k (Nat.mod_lt _ hpos)
  · intro k
    rw [end_eq]
    exact key _ k (Nat.mod_lt _ hpos)

theorem indexing_total_witness :
    toU64 example_one.n_enqueues % 4 < 4 ∧ toU64 example_one.n_dequeues % 4 < 4 ∧
      (slot 4 (toU64 example_one.n_enqueues)).val = toU64 example_one.n_enqueues % 4 ∧
      (slot 4 (toU64 example_one.n_dequeues)).val = toU64 example_one.n_dequeues % 4 ∧
      (∀ k, ∃ it, Iterator.advance 4 k (begin example_one) = some it ∧
        0 ≤ it.position ∧ it.position < ((4 : Nat) : Int) ∧
        ∃ x, deref example_one it = some x) ∧
      (∀ k, ∃ it, Iterator.advance 4 k (end_ example_one) = some it ∧
        0 ≤ it.position ∧ it.position < ((4 : Nat) : Int) ∧
        ∃ x, deref example_one it = some x) :=
  indexing_total (by decide) (by decide) example_one

end RingBufferRange

/-! ## Iterators and later calls -/

namespace RingBufferRange

variable {ContentType : Type} {length : Nat}

theorem run_cons_some [NeZero length] {s s' : RingBufferRange ContentType length}
    {c : Call ContentType} {cs : List (Call ContentType)} {rets : List (Ret ContentType)}
    (h : run s (c :: cs) = some (rets, s')) :
    ∃ r s1 rs, call s c = some (r, s1) ∧ run s1 cs = some (rs, s') ∧ rets = r :: rs := by
  rw [run] at h
  cases hc : call s c with
  | none => rw [hc] at h; cases h
  | some p =>
    obtain ⟨r, s1⟩ := p
    rw [hc] at h
    simp only at h
    cases hr : run s1 cs with
    | none => rw [hr] at h; cases h
    | some q =>
      obtain ⟨rs, s2⟩ := q
      rw [hr] at h
      simp only [Option.some.injEq, Prod.mk.injEq] at h
      obtain ⟨h1, h2⟩ := h
      subst h2
      exact ⟨r, s1, rs, rfl, hr, h1.symm⟩

end RingBufferRange

namespace RingBufferRange

variable {ContentType : Type} {length : Nat}

end RingBufferRange

/-! ## Refinement of the abstract queue -/

namespace RingBufferRange

variable {ContentType : Type} {length : Nat}

theorem pop_eq_map_dequeue [NeZero length] (s : RingBufferRange ContentType length) :
    pop s = (dequeue s).map (fun p => (p.1.isSome, p.2)) := by
  unfold pop dequeue
  by_cases hne : s.n_dequeues < s.n_enqueues
  · have hgt : s.n_enqueues > s.n_dequeues := hne
    simp [hne, hgt, Option.map_map, Function.comp]
    rfl
  · have hgt : ¬ s.n_enqueues > s.n_dequeues := hne
    simp [hne, hgt, Option.map_map, Function.comp]
    rfl

theorem call_sim [NeZero length] (hlen : has_single_bit length)
    (s : RingBufferRange ContentType length) (c : Call ContentType) (h : Inv s)
    (hmax : c.is_insert = true → s.n_enqueues < INT64_MAX) :
    ∃ r s', call s c = some (r, s') ∧ AbstractQueue.call length (live s) c = (r, live s') ∧
      Inv s' ∧ s'.n_enqueues ≤ s.n_enqueues + (if c.is_insert then 1 else 0) := by
  have key : ∀ v : ContentType, s.n_enqueues < INT64_MAX →
      ∃ b s', enqueue s v = some (b, s') ∧ AbstractQueue.insert length (live s) v = (b, live s') ∧
        Inv s' ∧ s'.n_enqueues ≤ s.n_enqueues + 1 := by
    intro v hlt
    by_cases hfree : s.n_enqueues - s.n_dequeues < (length : Int)
    · have hstep := enqueue_of_slot_available hlen s v h.1 h.inInt64_deq.2
        (le_trans h.1 h.2.1) hlt hfree
      refine ⟨_, _, hstep, ?_, h.enqueue hlen hstep, le_refl _⟩
      have hl : (live s).length < length := by
        rw [live_length]; have := h.2.1; omega
      rw [live_enqueue s v h hfree]
      simp [AbstractQueue.insert, hl]
    · have hsa : ¬ toU64 s.n_enqueues < (toU64 s.n_dequeues + length) % 2 ^ 64 :=
        fun hc => hfree ((slot_available_iff hlen h.1 h.inInt64_deq.2
          (le_trans h.1 h.2.1) h.2.2.2).mp hc)
      refine ⟨_, _, enqueue_of_not_slot_available s v h.inInt64_enq hsa, ?_, h, by omega⟩
      have hl : ¬ (live s).length < length := by
        rw [live_length]; have := h.2.2.1; omega
      simp [AbstractQueue.insert, hl]
  have keyd : ∃ r s', dequeue s = some (r, s') ∧ AbstractQueue.remove (live s) = (r, live s') ∧
      Inv s' ∧ s'.n_enqueues = s.n_enqueues := by
    by_cases hne : s.n_enqueues > s.n_dequeues
    · have hstep := dequeue_of_not_empty s h.inInt64_enq h.inInt64_deq hne
      refine ⟨_, _, hstep, ?_, h.dequeue hstep, rfl⟩
      rw [live_dequeue s h hne]
      rfl
    · have he : s.n_enqueues = s.n_dequeues := by have := h.2.1; omega
      refine ⟨_, _, dequeue_of_empty s h.inInt64_deq hne, ?_, h, rfl⟩
      rw [live_of_empty s he]
      rfl
  cases c with
  | enqueue v =>
    obtain ⟨b, s', hstep, habs, hinv, hle⟩ := key v (hmax rfl)
    refine ⟨Ret.bool b, s', ?_, ?_, hinv, by simpa [Call.is_insert] using hle⟩
    · simp [call, hstep]
    · simp [AbstractQueue.call, habs]
  | emplace Args build args =>
    obtain ⟨b, s', hstep, habs, hinv, hle⟩ := key (build args) (hmax rfl)
    refine ⟨Ret.bool b, s', ?_, ?_, hinv, by simpa [Call.is_insert] using hle⟩
    · simp [call, emplace_eq_enqueue, hstep]
    · simp [AbstractQueue.call, habs]
  | dequeue =>
    obtain ⟨r, s', hstep, habs, hinv, he⟩ := keyd
    refine ⟨Ret.optional r, s', ?_, ?_, hinv, by simp [Call.is_insert, he]⟩
    · simp [call, hstep]
    · simp [AbstractQueue.call, habs]
  | pop =>
    obtain ⟨r, s', hstep, habs, hinv, he⟩ := keyd
    refine ⟨Ret.bool r.isSome, s', ?_, ?_, hinv, by simp [Call.is_insert, he]⟩
    · rw [call, (pop_eq_map_dequeue s), hstep]
      rfl
    · simp [AbstractQueue.call, habs]
  | n_entries =>
    refine ⟨Ret.count (s.n_enqueues - s.n_dequeues).toNat, s, ?_, ?_, h,
      by simp [Call.is_insert]⟩
    · simp [call, n_entries_of_inv h]
    · simp [AbstractQueue.call, live_length]

end RingBufferRange

namespace RingBufferRange

variable {ContentType : Type} {length : Nat}

theorem run_sim [NeZero length] (hlen : has_single_bit length) (cs : List (Call ContentType)) :
    ∀ s : RingBufferRange ContentType length, Inv s →
      s.n_enqueues + (List.countP Call.is_insert cs : Int) ≤ INT64_MAX →
      ∃ rets s', run s cs = some (rets, s') ∧
        AbstractQueue.run length (live s) cs = (rets, live s') ∧ Inv s' := by
  induction cs with
  | nil =>
    intro s h _
    exact ⟨[], s, rfl, rfl, h⟩
  | cons c cs ih =>
    intro s h hb
    rw [List.countP_cons] at hb
    have hcnt : (0 : Int) ≤ (List.countP Call.is_insert cs : Int) := Int.natCast_nonneg _
    obtain ⟨r, s1, hc, ha, hinv1, hle⟩ := call_sim hlen s c h (by
      intro hins
      rw [if_pos hins] at hb
      push_cast at hb
      omega)
    obtain ⟨rs, s', hr, har, hinv'⟩ := ih s1 hinv1 (by
      by_cases hins : c.is_insert = true
      · rw [if_pos hins] at hb hle
        push_cast at hb
        omega
      · rw [if_neg hins] at hb hle
        push_cast at hb
        omega)
    refine ⟨r :: rs, s', ?_, ?_, hinv'⟩
    · rw [run, hc]
      simp only [hr]
    · rw [AbstractQueue.run, ha]
      simp only [har]

theorem live_construct [Inhabited ContentType] [NeZero length] (p : Nat) :
    live (construct p : RingBufferRange ContentType length) = [] := by
  simp [live, construct]

/-- C17, amended: for every finite sequence of `enqueue`, `emplace`, `dequeue`, `pop` and
`n_entries` calls that contains fewer than `2^63` calls of `enqueue` or `emplace`, applied to a
freshly constructed buffer and in lockstep to the empty abstract queue: after every call (every
prefix of the sequence) the buffer has returned the same values as the abstract queue, and the
abstract list equals the slots of the logical positions `n_dequeues, ..., n_enqueues - 1`. -/
theorem refines_abstract_queue [Inhabited ContentType] [NeZero length]
    (hlen : has_single_bit length) (p : Nat) (cs : List (Call ContentType))
    (hbound : (List.countP Call.is_insert cs : Int) ≤ INT64_MAX) :
    ∀ n : Nat, ∃ rets s',
      run (construct p : RingBufferRange ContentType length) (cs.take n) = some (rets, s') ∧
      AbstractQueue.run length [] (cs.take n) = (rets, live s') := by
  intro n
  have hle : List.countP Call.is_insert (cs.take n) ≤ List.countP Call.is_insert cs :=
    (List.take_sublist n cs).countP_le _
  obtain ⟨rets, s', hr, ha, -⟩ := run_sim hlen (cs.take n)
    (construct p : RingBufferRange ContentType length) (Inv.construct p) (by
      have h0 : (construct p : RingBufferRange ContentType length).n_enqueues = 0 := rfl
      rw [h0]
      have : (List.countP Call.is_insert (cs.take n) : Int) ≤
          (List.countP Call.is_insert cs : Int) := by exact_mod_cast hle
      omega)
  rw [live_construct] at ha
  exact ⟨rets, s', hr, ha⟩

theorem refines_abstract_queue_witness :
    ∃ rets s',
      run (construct 0 : RingBufferRange Nat 4)
        ([Call.enqueue 1, Call.n_entries, Call.dequeue, Call.pop].take 4) = some (rets, s') ∧
      AbstractQueue.run 4 [] ([Call.enqueue 1, Call.n_entries, Call.dequeue, Call.pop].take 4) =
        (rets, live s') :=
  refines_abstract_queue (by decide) 0 [Call.enqueue 1, Call.n_entries, Call.dequeue, Call.pop]
    (by decide) 4

end RingBufferRange

namespace RingBufferRange

variable {ContentType : Type} {length : Nat}

theorem run_append_none [NeZero length] (cs1 cs2 : List (Call ContentType)) :
    ∀ (s s1 : RingBufferRange ContentType length) (r1 : List (Ret ContentType)),
      run s cs1 = some (r1, s1) → run s1 cs2 = none → run s (cs1 ++ cs2) = none := by
  induction cs1 with
  | nil =>
    intro s s1 r1 h h2
    rw [run] at h
    obtain ⟨-, rfl⟩ := Prod.mk.inj (Option.some.inj h)
    exact h2
  | cons c cs1 ih =>
    intro s s1 r1 h h2
    obtain ⟨r, sa, rs, hc, hr, -⟩ := run_cons_some h
    rw [List.cons_append, run, hc]
    simp only [ih sa s1 rs hr h2]

theorem run_pairs (k : Nat) : ∀ n : Nat, ((n + k : Nat) : Int) ≤ INT64_MAX →
    ∃ rets, run ({ n_enqueues := n, n_dequeues := n, mem_ptr := 0, mem_span := fun _ => 0 } :
        RingBufferRange Nat 4) (enqueue_dequeue_pairs k) =
      some (rets,
        ({ n_enqueues := ((n + k : Nat) : Int), n_dequeues := ((n + k : Nat) : Int),
           mem_ptr := 0, mem_span := fun _ => 0 } : RingBufferRange Nat 4)) := by
  induction k with
  | zero =>
    intro n _
    exact ⟨[], rfl⟩
  | succ k ih =>
    intro n hn
    have hn' : (n : Int) < INT64_MAX := by
      push_cast at hn; omega
    have hin : inInt64 (n : Int) := by
      unfold inInt64 INT64_MIN; unfold INT64_MAX at *; omega
    have hin' : inInt64 ((n : Int) + 1) := by
      unfold inInt64 INT64_MIN; unfold INT64_MAX at *; omega
    have hmem : Function.update (fun _ : Fin 4 => (0 : Nat))
        (slot 4 (toU64 (n : Int))) 0 = fun _ => 0 := by
      funext j
      simp [Function.update_apply]
    have h1 := enqueue_of_slot_available (by decide)
      ({ n_enqueues := n, n_dequeues := n, mem_ptr := 0, mem_span := fun _ => 0 } :
        RingBufferRange Nat 4) 0
      (by simp) (le_of_lt hn') (by simp) hn' (by simp)
    simp only [hmem] at h1
    have h2 := dequeue_of_not_empty
      ({ n_enqueues := (n : Int) + 1, n_dequeues := n, mem_ptr := 0,
         mem_span := fun _ => 0 } : RingBufferRange Nat 4)
      hin' hin (by simp)
    simp only at h2
    have e : n + 1 + k = n + (k + 1) := by omega
    obtain ⟨rets, hr⟩ := ih (n + 1) (by rw [e]; exact hn)
    rw [e] at hr
    simp only [Nat.cast_add, Nat.cast_one] at hr
    refine ⟨Ret.bool true :: Ret.optional (some 0) :: rets, ?_⟩
    rw [enqueue_dequeue_pairs, run, call, h1]
    simp only [Option.map_some']
    rw [run, call, h2]
    simp only [Option.map_some', hr]
    simp only [Nat.cast_add, Nat.cast_one]

theorem abstract_run_append (N : Nat) (cs1 cs2 : List (Call ContentType)) :
    ∀ q : AbstractQueue ContentType,
      (AbstractQueue.run N q (cs1 ++ cs2)).2 =
        (AbstractQueue.run N (AbstractQueue.run N q cs1).2 cs2).2 := by
  induction cs1 with
  | nil => intro q; rfl
  | cons c cs1 ih =>
    intro q
    rw [List.cons_append, AbstractQueue.run, AbstractQueue.run]
    exact ih _

theorem abstract_run_pairs (k : Nat) :
    (AbstractQueue.run 4 [] (enqueue_dequeue_pairs k)).2 = [] := by
  induction k with
  | zero => rfl
  | succ k ih =>
    rw [enqueue_dequeue_pairs, AbstractQueue.run, AbstractQueue.run]
    exact ih

/-- C17 fails as stated: after `2^63 - 1` pairs `enqueue(0); dequeue();` on a freshly
constructed buffer both counters hold the largest `std::int64_t`; the next `enqueue(7)` has no
defined result in the buffer, while the abstract queue accepts the value. -/
theorem refinement_counterexample_overflow :
    run (construct 0 : RingBufferRange Nat 4)
        (enqueue_dequeue_pairs (2 ^ 63 - 1) ++ [Call.enqueue 7]) = none ∧
      (AbstractQueue.run 4 [] (enqueue_dequeue_pairs (2 ^ 63 - 1) ++ [Call.enqueue 7])).2 =
        [7] := by
  constructor
  · obtain ⟨rets, hr⟩ := run_pairs (2 ^ 63 - 1) 0 (by decide)
    have e : ((0 + (2 ^ 63 - 1) : Nat) : Int) = INT64_MAX := by decide
    rw [e] at hr
    have hlast : run example_at_max [Call.enqueue 7] = none := by
      have hnone : enqueue example_at_max 7 = none :=
        (enqueue_eq_none_iff example_at_max 7 (by decide)).mpr ⟨by decide, rfl⟩
      rw [run, call, hnone]
      rfl
    exact run_append_none _ _ _ _ rets hr hlast
  · rw [abstract_run_append, abstract_run_pairs]
    rfl

end RingBufferRange
